import Mathlib

/-!
Verification of the Atmosphere/Jetstream reconciliation and enforcement core.

Shallow embedding of:
- service/tasks/monitoring.py   (allocation enforcement dispatch, machine pruning,
  cascade end-dating, membership reconciliation and integrity cleanup)
- core/models/instance_history.py (status history ledger)
- jetstream/plugins/auth/validation.py (user validation with local fallback)

Timestamps are modelled as natural numbers (Nat) for the lifecycle store and as
integers (Int) for the history ledger, where durations are differences.
A null database column is modelled as Option.none.
-/

namespace Atmo

/-! ## Allocation enforcement (service/tasks/monitoring.py, monitor_allocation_sources) -/

/-- The pluggable override policy result, `core.plugins.EnforcementOverrideChoice`. -/
inductive EnforcementOverrideChoice
  | NO_OVERRIDE
  | ALWAYS_ENFORCE
  | NEVER_ENFORCE
deriving DecidableEq, Repr

open EnforcementOverrideChoice

/-- The per-(allocation_source, user) dispatch decision taken by the body of the
loop in `monitor_allocation_sources` (monitoring.py lines 562-602): true when
`allocation_source_overage_enforcement_for_user.apply_async` is called, false
when the loop continues without dispatching.  The three `if` statements are
mirrored in order: the first `continue`s, the second only logs, the third
dispatches. -/
def dispatch_decision (over_allocation : Bool)
    (enforcement_override_choice : EnforcementOverrideChoice) : Bool :=
  if over_allocation && (enforcement_override_choice == NEVER_ENFORCE) then
    false
  else if over_allocation || (enforcement_override_choice == ALWAYS_ENFORCE) then
    true
  else
    false

/-- The decision table of spec section 4.3, written from the spec words:
row 1: over and NEVER_ENFORCE: skip; row 2: not over and ALWAYS_ENFORCE: enforce;
row 3: over and (NO_OVERRIDE or ALWAYS_ENFORCE): enforce;
row 4: not over and (NO_OVERRIDE or NEVER_ENFORCE): skip. -/
def spec_decision_table (over_allocation : Bool)
    (override : EnforcementOverrideChoice) : Bool :=
  match over_allocation, override with
  | true, NEVER_ENFORCE => false
  | false, ALWAYS_ENFORCE => true
  | true, NO_OVERRIDE => true
  | true, ALWAYS_ENFORCE => true
  | false, NO_OVERRIDE => false
  | false, NEVER_ENFORCE => false

/-! ## User validation (jetstream/plugins/auth/validation.py) -/

/-- Outcome of the remote TAS API interaction inside `validate_user`:
either `fill_user_allocation_source_for` returns the project allocation list,
or one of the two known user-does-not-exist exceptions is raised, or a
`TASAPIException` / `Timeout` is raised. -/
inductive RemoteValidation
  | ok (project_allocations : List Nat)
  | userNotFound
  | remoteFailure
deriving DecidableEq, Repr

/-- A locally recorded `UserAllocationSource` row: user id and end date.
`only_current_user_allocations` (core/query, not under src/) is modelled from
the spec as: the row is current when its end date is null. -/
structure UserAllocRow where
  user : Nat
  end_date : Option Nat
deriving DecidableEq, Repr

/-- `XsedeProjectRequired.validate_user` (validation.py lines 13-44).
The remote interaction is abstracted as a `RemoteValidation` outcome; the local
store is the list of `UserAllocationSource` rows. -/
def validate_user (remote : RemoteValidation) (user : Nat)
    (user_allocation_sources : List UserAllocRow) : Bool :=
  match remote with
  | .ok project_allocations => !project_allocations.isEmpty
  | .userNotFound => false
  | .remoteFailure =>
      let active_allocation_count :=
        (user_allocation_sources.filter
          (fun r => r.user == user && r.end_date.isNone)).length
      decide (active_allocation_count > 0)

/-! ## Status history ledger (core/models/instance_history.py) -/

/-- One `InstanceStatusHistory` row.  The `size` foreign key and the JSON
`extra` payload are elided: no claim depends on them. -/
structure HistoryRow where
  id : Nat
  statusName : String
  activity : String
  start_date : Int
  end_date : Option Int
deriving DecidableEq, Repr

/-- The owning `Instance` together with its `instancestatushistory_set`. -/
structure Inst where
  start_date : Int
  end_date : Option Int
  histories : List HistoryRow
deriving DecidableEq, Repr

namespace InstanceStatusHistory

/-- `InstanceStatusHistory.is_active` (instance_history.py lines 272-281). -/
def is_active (self : HistoryRow) : Bool :=
  self.statusName == "active" || self.statusName == "running"

/-- `InstanceStatusHistory.get_active_time` (instance_history.py lines 229-265).
`timezone.now()` is passed explicitly as `now`.  Returns
(active duration, effective start, effective end). -/
def get_active_time (self : HistoryRow) (now : Int)
    (earliest_time latest_time : Option Int) : Int × Int × Int :=
  let start_time :=
    match earliest_time with
    | some e => if self.start_date ≤ e then e else self.start_date
    | none => self.start_date
  let final_time :=
    match latest_time with
    | some l =>
        match self.end_date with
        | none => l
        | some ed => if ed ≥ l then l else ed
    | none =>
        match self.end_date with
        | some ed => ed
        | none => now
  if !is_active self then (0, start_time, final_time)
  else if self.start_date > final_time then (0, start_time, final_time)
  else (final_time - start_time, start_time, final_time)

/-- The effective end of the counting window as computed by `get_active_time`
(its `final_time` local). -/
def final_time (self : HistoryRow) (now : Int) (latest_time : Option Int) : Int :=
  match latest_time with
  | some l =>
      match self.end_date with
      | none => l
      | some ed => if ed ≥ l then l else ed
  | none =>
      match self.end_date with
      | some ed => ed
      | none => now

/-- Modelled from the spec: `Instance.get_last_history` (core/models/instance.py
is not under src/; only its caller is).  Per spec section 4.1 the transaction
closes the currently-open (latest) history row; the last history is the row with
the greatest start date, later rows in insertion order winning ties
(Django order_by start_date, then .last()). -/
def get_last_history (inst : Inst) : Option HistoryRow :=
  inst.histories.foldl
    (fun acc h =>
      match acc with
      | none => some h
      | some b => if h.start_date ≥ b.start_date then some h else some b)
    none

/-- `InstanceStatusHistory.transaction` (instance_history.py lines 118-168).
The `django.db.transaction.atomic` block is modelled by the `Except` result:
an `.error` outcome leaves the store untouched (rollback, no partial writes),
an `.ok` outcome carries the full new store.  The `DatabaseError` catch
(an external lock conflict) is outside the deterministic model.  `size` and
`extra` are elided as in `HistoryRow`; `new_id` is the fresh primary key for the
created row.  Note: when `last_history` is supplied by the caller, the code
performs no check that it is still open. -/
def transaction (inst : Inst) (status_name activity : String)
    (start_time : Int) (new_id : Nat)
    (last_history : Option HistoryRow := none) : Except String Inst :=
  let commit : HistoryRow → Except String Inst := fun lh =>
    let closed := inst.histories.map
      (fun h => if h.id = lh.id then { h with end_date := some start_time } else h)
    let new_history : HistoryRow :=
      { id := new_id, statusName := status_name, activity := activity,
        start_date := start_time, end_date := none }
    .ok { inst with histories := closed ++ [new_history] }
  match last_history with
  | none =>
      match get_last_history inst with
      | none => .error "A previous history is required to perform a transaction."
      | some lh =>
          if lh.end_date ≠ none then .error "Old history already has end date"
          else commit lh
  | some lh => commit lh

/-- `InstanceStatusHistory.previous` / `next` can return a row, raise
`LookupError` (a chain boundary), raise `ValueError` (a consistency error), or
fall off the end of the function body (Python then returns None). -/
inductive HistStep
  | row (h : HistoryRow)
  | noneRow
  | lookupBoundary
  | valueError
deriving DecidableEq, Repr

/-- `InstanceStatusHistory.previous` (instance_history.py lines 61-82).
Django `.get(start_date=self.end_date)` is modelled as the first matching row
(primary keys make the match unique in the database).  Note the source queries
`start_date == self.end_date` and contains no return statement: on a successful
lookup of a distinct row the method falls through and returns None. -/
def previous (inst : Inst) (self : HistoryRow) : HistStep :=
  if inst.start_date = self.start_date then .lookupBoundary
  else
    match inst.histories.find? (fun h => some h.start_date == self.end_date) with
    | none => .valueError
    | some history => if history.id = self.id then .valueError else .noneRow

/-- `InstanceStatusHistory.next` (instance_history.py lines 84-116). -/
def next (inst : Inst) (self : HistoryRow) : HistStep :=
  match self.end_date with
  | none =>
      if inst.end_date ≠ none then .valueError
      else .lookupBoundary
  | some ed =>
      if inst.end_date = some ed then .lookupBoundary
      else if get_last_history inst = some self then .lookupBoundary
      else
        match inst.histories.find? (fun h => h.start_date == ed) with
        | some history => .row history
        | none => .valueError

end InstanceStatusHistory

/-! ## Lifecycle store (Application, ApplicationVersion, ProviderMachine)

The persisted hierarchy for one provider.  `end_date = none` means the row is
current.  Group names are modelled as natural numbers (the source equates a
Group with a cloud project name by exact name equality). -/

/-- A `ProviderMachine` together with its `InstanceSource` fields: the cloud
image `identifier` and the lifecycle `end_date` live on the instance source. -/
structure Machine where
  id : Nat
  identifier : Nat
  versionId : Nat
  end_date : Option Nat
deriving DecidableEq, Repr

/-- An `ApplicationVersion` row. -/
structure Version where
  id : Nat
  appId : Nat
  end_date : Option Nat
deriving DecidableEq, Repr

/-- An `Application` row. -/
structure App where
  id : Nat
  end_date : Option Nat
deriving DecidableEq, Repr

/-- The relational store for one provider: the machine hierarchy, the three
membership join tables (resource id, group id), the known `Group`s, and the
completed `MachineRequest` access lists keyed by application version
(version id, access list of group names). -/
structure Store where
  machines : List Machine
  versions : List Version
  apps : List App
  machineMembers : List (Nat × Nat)
  versionMembers : List (Nat × Nat)
  appMembers : List (Nat × Nat)
  groups : List Nat
  requests : List (Nat × List Nat)
deriving DecidableEq, Repr

/-- `core.query.only_current(now_time)` (core/query is not under src/): the
filter `Q(end_date__gt=now_time) | Q(end_date__isnull=True)` spelled out at
monitoring.py lines 406-410 for the machine level and reused by name for the
version level. -/
def only_current (now_time : Nat) (end_date : Option Nat) : Bool :=
  match end_date with
  | none => true
  | some d => now_time < d

/-- `remove_machine` (monitoring.py lines 391-430): end-date the machine; if the
version then has no machine left that is current at `now_time`, end-date the
version; if the application then has no current version left, end-date the
application.  `dry_run` is elided (False in every caller under scrutiny); the
parent application is reached through the machine's version row. -/
def remove_machine (st : Store) (db_machine : Machine) (now_time : Nat) : Store :=
  let st1 := { st with
    machines := st.machines.map
      (fun x => if x.id == db_machine.id
                then { x with end_date := some now_time } else x) }
  if (st1.machines.filter
        (fun x => x.versionId == db_machine.versionId &&
                  only_current now_time x.end_date)).length ≠ 0 then
    st1
  else
    let st2 := { st1 with
      versions := st1.versions.map
        (fun v => if v.id == db_machine.versionId
                  then { v with end_date := some now_time } else v) }
    match st.versions.find? (fun v => v.id == db_machine.versionId) with
    | none => st2
    | some db_version =>
        if (st2.versions.filter
              (fun v => v.appId == db_version.appId &&
                        only_current now_time v.end_date)).length ≠ 0 then
          st2
        else
          { st2 with
            apps := st2.apps.map
              (fun a => if a.id == db_version.appId
                        then { a with end_date := some now_time } else a) }

/-- `_end_date_missing_database_machines` (monitoring.py lines 855-869): every
database machine whose identifier is not among the cloud machine ids is removed
(end-dated, with upward cascade).  The returned count is elided. -/
def end_date_missing_database_machines (st : Store) (db_machines : List Machine)
    (cloud_machine_ids : List Nat) (now : Nat) : Store :=
  db_machines.foldl
    (fun acc machine =>
      if cloud_machine_ids.contains machine.identifier then acc
      else remove_machine acc machine now)
    st

/-- Modelled from the spec: `end_date_all` on an `ApplicationVersion`
(core/models/application_version.py is not under src/).  End-dating is logical
deletion that is never cleared (spec sections 3 and glossary), so the version
and each of its machines receive the end date only where it is still null. -/
def version_end_date_all (st : Store) (v : Version) (now : Nat) : Store :=
  { st with
    machines := st.machines.map
      (fun x => if x.versionId == v.id && x.end_date.isNone
                then { x with end_date := some now } else x),
    versions := st.versions.map
      (fun w => if w.id == v.id && w.end_date.isNone
                then { w with end_date := some now } else w) }

/-- Modelled from the spec: `end_date_all` on an `Application`
(core/models/application.py is not under src/).  Fills the null end dates of the
application, its versions, and their machines. -/
def app_end_date_all (st : Store) (a : App) (now : Nat) : Store :=
  let vs := st.versions.filter (fun v => v.appId == a.id)
  { st with
    machines := st.machines.map
      (fun x => if vs.any (fun v => v.id == x.versionId) && x.end_date.isNone
                then { x with end_date := some now } else x),
    versions := st.versions.map
      (fun v => if v.appId == a.id && v.end_date.isNone
                then { v with end_date := some now } else v),
    apps := st.apps.map
      (fun p => if p.id == a.id && p.end_date.isNone
                then { p with end_date := some now } else p) }

/-- `_remove_versions_without_machines` (monitoring.py lines 872-880): versions
with no machine row ever attached and a null end date are end-dated via
`end_date_all` (`_perform_end_date`, lines 909-914). -/
def remove_versions_without_machines (st : Store) (now : Nat) : Store :=
  (st.versions.filter
      (fun v => v.end_date.isNone &&
        (st.machines.filter (fun x => x.versionId == v.id)).isEmpty)).foldl
    (fun acc v => version_end_date_all acc v now)
    st

/-- `_remove_applications_without_versions` (monitoring.py lines 883-891):
applications with no version row ever attached and a null end date are
end-dated via `end_date_all`. -/
def remove_applications_without_versions (st : Store) (now : Nat) : Store :=
  (st.apps.filter
      (fun a => a.end_date.isNone &&
        (st.versions.filter (fun v => v.appId == a.id)).isEmpty)).foldl
    (fun acc a => app_end_date_all acc a now)
    st

/-- The queryset filter of `_update_improperly_enddated_applications`
(monitoring.py lines 894-906): the application has already been end-dated
(`end_date__isnull=False`) and `core.query.inactive_versions()` holds, the
latter modelled from the spec as: every version of the application is inactive
(end-dated). -/
def improperly_enddated (st : Store) (a : App) : Bool :=
  !a.end_date.isNone &&
    (st.versions.filter (fun v => v.appId == a.id)).all
      (fun v => !v.end_date.isNone)

/-- `_update_improperly_enddated_applications` (monitoring.py lines 894-906):
`end_date_all` is applied to every matching application. -/
def update_improperly_enddated_applications (st : Store) (now : Nat) : Store :=
  (st.apps.filter (fun a => improperly_enddated st a)).foldl
    (fun acc a => app_end_date_all acc a now)
    st

/-- Modelled from the spec: `remove_membership` (service/machine.py is not under
src/).  Per spec section 4.2 item 7, the membership reset removes every member
that is not on the last completed MachineRequest's access list, and skips (log
only) when no completed MachineRequest exists.  Since the oversized set may sit
at any of the three cascading granularities, the group's join rows are removed
for the version's machines, for the version, and for the version's
application. -/
def remove_membership (st : Store) (versionId : Nat) (g : Nat) : Store :=
  match (st.requests.filter (fun r => r.1 == versionId)).getLast? with
  | none => st
  | some mr =>
      if mr.2.contains g then st
      else
        let vm := (st.machines.filter (fun x => x.versionId == versionId)).map
          (fun x => x.id)
        let va := (st.versions.filter (fun v => v.id == versionId)).map
          (fun v => v.appId)
        { st with
          machineMembers := st.machineMembers.filter
            (fun p => !(vm.contains p.1 && p.2 == g)),
          versionMembers := st.versionMembers.filter
            (fun p => !(p.1 == versionId && p.2 == g)),
          appMembers := st.appMembers.filter
            (fun p => !(va.contains p.1 && p.2 == g)) }

/-- The body of the `_clean_memberships` loop for one machine (monitoring.py
lines 840-852): the shared-access set is checked at machine, then version, then
application granularity; below 128 members at every granularity the machine is
skipped, otherwise every member of the first granularity holding at least 128
entries is handed to `remove_membership`.  The `order_by` only fixes iteration
order and the removal is order independent.  The parent version row is looked
up to reach the application (a foreign key in the database). -/
def clean_one (st : Store) (db_machine : Machine) : Store :=
  match st.versions.find? (fun v => v.id == db_machine.versionId) with
  | none => st
  | some db_version =>
      let members1 := (st.machineMembers.filter
        (fun p => p.1 == db_machine.id)).map (fun p => p.2)
      let members2 :=
        if members1.length < 128 then
          (st.versionMembers.filter
            (fun p => p.1 == db_machine.versionId)).map (fun p => p.2)
        else members1
      let members3 :=
        if members2.length < 128 then
          (st.appMembers.filter
            (fun p => p.1 == db_version.appId)).map (fun p => p.2)
        else members2
      if members3.length < 128 then st
      else
        members3.foldl
          (fun acc g => remove_membership acc db_machine.versionId g)
          st

/-- `_clean_memberships` (monitoring.py lines 833-852). -/
def clean_memberships (st : Store) (db_machines : List Machine) : Store :=
  db_machines.foldl (fun acc m => clean_one acc m) st

/-- `prune_machines_for` (monitoring.py lines 94-171) for an active provider.
`db_machines` is the queryset of machines with a null source end date; Django
caches the queryset after its first evaluation, so the list captured here is
the one seen by both `_end_date_missing_database_machines` and
`_clean_memberships`.  The cloud snapshot is the list of image identifiers
after the machine validator filter; if it is empty and removal is not forced,
the task returns before mutating anything.  `print_logs` and `dry_run` are
elided (logging only, and False). -/
def prune_machines_for (st : Store) (raw_cloud : List Nat) (valid : Nat → Bool)
    (validate : Bool) (forced_removal : Bool) (now : Nat) : Store :=
  let db_machines := st.machines.filter (fun m => m.end_date.isNone)
  let cloud_machines := raw_cloud.filter (fun c => !validate || valid c)
  if cloud_machines.isEmpty && !forced_removal then st
  else
    let st1 := end_date_missing_database_machines st db_machines cloud_machines now
    let st2 := remove_versions_without_machines st1 now
    let st3 := remove_applications_without_versions st2 now
    let st4 := update_improperly_enddated_applications st3 now
    clean_memberships st4 db_machines

/-! ## Image membership reconciliation (monitoring.py lines 292-388, 482-499) -/

/-- `_get_all_access_list` (monitoring.py lines 292-345): the union of the
application owner, the cloud-reported members, the last completed
MachineRequest's access list, and the application's pattern-matched access
list.  Python builds sets; the union is modelled as a deduplicated list. -/
def get_all_access_list (image_owner : Option Nat) (cloud_shared : List Nat)
    (machine_request_access : Option (List Nat)) (app_access : List Nat) :
    List Nat :=
  ((match image_owner with | some o => [o] | none => []) ++
    cloud_shared ++
    (match machine_request_access with | some l => l | none => []) ++
    app_access).dedup

/-- Modelled from the spec: `update_db_membership_for_group`
(service/machine.py is not under src/).  Per spec section 4.2 item 6 it creates
the missing `ProviderMachineMembership` and `ApplicationVersionMembership` join
rows for the group and never deletes. -/
def update_db_membership_for_group (st : Store) (db_machine : Machine)
    (g : Nat) : Store :=
  let st1 :=
    if st.machineMembers.contains (db_machine.id, g) then st
    else { st with machineMembers := st.machineMembers ++ [(db_machine.id, g)] }
  if st1.versionMembers.contains (db_machine.versionId, g) then st1
  else { st1 with
    versionMembers := st1.versionMembers ++ [(db_machine.versionId, g)] }

/-- `update_image_membership` (monitoring.py lines 348-388).  Public images are
skipped.  The groups to share with are the known `Group`s whose name appears on
the access list.  Note the oversize hack (lines 376-385): when the access list
exceeds 128 names, the function returns if no completed MachineRequest exists,
and otherwise reassigns `shared_project_names`; but `groups` was already
computed from the original list, so the loop still walks the original groups
(mirrored faithfully).  The cloud-side inputs are passed as parameters. -/
def update_image_membership (st : Store) (db_machine : Machine)
    (visibility : String) (image_owner : Option Nat) (cloud_shared : List Nat)
    (machine_request_access : Option (List Nat)) (app_access : List Nat) :
    Store :=
  if visibility == "public" then st
  else
    let shared_project_names :=
      get_all_access_list image_owner cloud_shared machine_request_access
        app_access
    let groups := st.groups.filter (fun g => shared_project_names.contains g)
    if shared_project_names.length > 128 && machine_request_access.isNone then
      st
    else
      groups.foldl (fun acc g => update_db_membership_for_group acc db_machine g)
        st

/-- `add_application_membership` (monitoring.py lines 482-499): for every group
of the identity's memberships, create the `ApplicationMembership` row when none
exists for the (application, group) pair. -/
def add_application_membership (st : Store) (appId : Nat)
    (identity_groups : List Nat) (dry_run : Bool) : Store :=
  identity_groups.foldl
    (fun acc g =>
      if (acc.appMembers.filter
            (fun p => p.1 == appId && p.2 == g)).length == 0 then
        if !dry_run then { acc with appMembers := acc.appMembers ++ [(appId, g)] }
        else acc
      else acc)
    st

/-! ## Concrete stores used by witnesses and counterexamples -/

/-- Discriminates the commit/abort outcome of a history `transaction`. -/
def txSucceeded (r : Except String Inst) : Bool :=
  match r with
  | .ok _ => true
  | .error _ => false

/-- An already-closed history row (end date 5). -/
def c2row : HistoryRow :=
  { id := 0, statusName := "active", activity := "", start_date := 0,
    end_date := some 5 }

/-- An instance whose only history row is already closed. -/
def c2inst : Inst :=
  { start_date := 0, end_date := none, histories := [c2row] }

/-- The store produced when `transaction` is handed the closed row `c2row` as
`last_history`: the closed row's end date is overwritten and a new open row is
appended. -/
def c2result : Inst :=
  { start_date := 0, end_date := none,
    histories :=
      [{ id := 0, statusName := "active", activity := "", start_date := 0,
         end_date := some 10 },
       { id := 1, statusName := "suspended", activity := "idle",
         start_date := 10, end_date := none }] }

/-- First row of a well-formed three-row history chain. -/
def c7row1 : HistoryRow :=
  { id := 1, statusName := "active", activity := "", start_date := 0,
    end_date := some 10 }

/-- Middle row of the chain: its previous row exists (c7row1). -/
def c7row2 : HistoryRow :=
  { id := 2, statusName := "suspended", activity := "", start_date := 10,
    end_date := some 20 }

/-- Open final row of the chain. -/
def c7row3 : HistoryRow :=
  { id := 3, statusName := "active", activity := "", start_date := 20,
    end_date := none }

/-- A still-running instance with the contiguous chain c7row1-c7row2-c7row3. -/
def c7inst : Inst :=
  { start_date := 0, end_date := none,
    histories := [c7row1, c7row2, c7row3] }

/-- A small store with one current machine, version and application, used to
exercise the empty-snapshot guard. -/
def c10store : Store :=
  { machines := [⟨0, 5, 0, none⟩], versions := [⟨0, 0, none⟩],
    apps := [⟨0, none⟩], machineMembers := [(0, 1)], versionMembers := [(0, 1)],
    appMembers := [(0, 1)], groups := [1], requests := [] }

/-- A store whose single current machine carries exactly 128 machine-level
membership rows (groups 0 to 127), with a completed MachineRequest whose
access list holds only group 0. -/
def c5store : Store :=
  { machines := [⟨0, 5, 0, none⟩], versions := [⟨0, 0, none⟩],
    apps := [⟨0, none⟩],
    machineMembers := (List.range 128).map (fun g => (0, g)),
    versionMembers := [], appMembers := [], groups := [],
    requests := [(0, [0])] }

/-- As c5store, but the 128 membership rows sit at the version granularity:
the machine-level set is empty, so the cleanup cascades to the version set. -/
def c5vstore : Store :=
  { machines := [⟨0, 5, 0, none⟩], versions := [⟨0, 0, none⟩],
    apps := [⟨0, none⟩],
    machineMembers := [],
    versionMembers := (List.range 128).map (fun g => (0, g)),
    appMembers := [], groups := [],
    requests := [(0, [0])] }

/-- As c5store, but the 128 membership rows sit at the application
granularity: the machine- and version-level sets are empty, so the cleanup
cascades to the application set. -/
def c5astore : Store :=
  { machines := [⟨0, 5, 0, none⟩], versions := [⟨0, 0, none⟩],
    apps := [⟨0, none⟩],
    machineMembers := [], versionMembers := [],
    appMembers := (List.range 128).map (fun g => (0, g)),
    groups := [],
    requests := [(0, [0])] }

/-- Store for the reconciliation-idempotence counterexample: one current
machine matched by the cloud snapshot, 130 machine-level membership rows
(groups 0-129), version-level membership rows for groups 0-129 and 200-324,
and a completed MachineRequest whose access list is groups 0-9.  The first
cleanup run triggers at the machine granularity; the second run then triggers
at the version granularity, which still holds 135 rows. -/
def c4store : Store :=
  { machines := [⟨0, 5, 0, none⟩], versions := [⟨0, 0, none⟩],
    apps := [⟨0, none⟩],
    machineMembers := (List.range 130).map (fun g => (0, g)),
    versionMembers := (List.range 130).map (fun g => (0, g)) ++
      (List.range 125).map (fun g => (0, 200 + g)),
    appMembers := [], groups := [],
    requests := [(0, List.range 10)] }

/-- An end-dating row update: the row is either untouched or receives some end
date, all other fields kept.  Every machine-row transformation performed by the
pruning pass has this shape. -/
def MachUpd (F : Machine → Machine) : Prop :=
  ∀ x, F x = x ∨ ∃ t, F x = { x with end_date := some t }

/-- An end-dating update on version rows. -/
def VerUpd (F : Version → Version) : Prop :=
  ∀ v, F v = v ∨ ∃ t, F v = { v with end_date := some t }

/-- An end-dating update on application rows. -/
def AppUpd (F : App → App) : Prop :=
  ∀ a, F a = a ∨ ∃ t, F a = { a with end_date := some t }

/-- One pruning phase relates the machine, version, and application tables of
the stores before and after by end-dating row updates: no row is created,
removed, or altered other than by filling or overwriting its end date. -/
def PhaseFact (s s2 : Store) : Prop :=
  (∃ F, s2.machines = s.machines.map F ∧ MachUpd F) ∧
  (∃ F, s2.versions = s.versions.map F ∧ VerUpd F) ∧
  (∃ F, s2.apps = s.apps.map F ∧ AppUpd F)

end Atmo

namespace Atmo

/-! ## Theorems -/

/-- C1: for every pair (over_allocation, override), the dispatch decision of the
allocation-monitoring loop agrees with the decision table of spec section 4.3:
skip when over and NEVER_ENFORCE, enforce when not over and ALWAYS_ENFORCE,
enforce when over and NO_OVERRIDE or ALWAYS_ENFORCE, skip when not over and
NO_OVERRIDE or NEVER_ENFORCE. -/
theorem C1_enforcement_override_matrix :
    ∀ (over_allocation : Bool) (override : EnforcementOverrideChoice),
      dispatch_decision over_allocation override =
        spec_decision_table over_allocation override := by
  intro o c
  cases o <;> cases c <;> rfl

/-- C9: when the remote validation source times out or errors, `validate_user`
does not propagate the failure but returns true exactly when the user has at
least one current local UserAllocationSource record; for the known
user-does-not-exist exceptions it returns false. -/
theorem C9_validate_user_fallback :
    ∀ (user : Nat) (rows : List UserAllocRow),
      (validate_user RemoteValidation.remoteFailure user rows = true ↔
        0 < (rows.filter (fun r => r.user == user && r.end_date.isNone)).length) ∧
      validate_user RemoteValidation.userNotFound user rows = false := by
  intro u rows
  constructor
  · simp [validate_user]
  · rfl

namespace InstanceStatusHistory

theorem get_active_time_eq (self : HistoryRow) (now : Int)
    (earliest_time latest_time : Option Int) :
    get_active_time self now earliest_time latest_time =
      ( let start_time :=
          match earliest_time with
          | some e => if self.start_date ≤ e then e else self.start_date
          | none => self.start_date
        let ft := final_time self now latest_time
        if !is_active self then (0, start_time, ft)
        else if self.start_date > ft then (0, start_time, ft)
        else (ft - start_time, start_time, ft) ) := by
  cases latest_time <;> cases earliest_time <;>
    simp [get_active_time, final_time]

end InstanceStatusHistory

/-- C6: `get_active_time` returns zero duration whenever the row's status is
not classified active (for any window), and zero duration whenever the row's
start date is after the effective end of the window; for an active-status row
whose closed interval lies fully inside the supplied window it returns exactly
end_date minus start_date. -/
theorem C6_get_active_time (h : HistoryRow) (now : Int)
    (earliest latest : Option Int) :
    (InstanceStatusHistory.is_active h = false →
      (InstanceStatusHistory.get_active_time h now earliest latest).1 = 0) ∧
    (h.start_date > InstanceStatusHistory.final_time h now latest →
      (InstanceStatusHistory.get_active_time h now earliest latest).1 = 0) ∧
    (∀ e l ed, h.end_date = some ed →
      InstanceStatusHistory.is_active h = true →
      e ≤ h.start_date → h.start_date ≤ ed → ed ≤ l →
      (InstanceStatusHistory.get_active_time h now (some e) (some l)).1 =
        ed - h.start_date) := by
  refine ⟨?_, ?_, ?_⟩
  · intro hna
    rw [InstanceStatusHistory.get_active_time_eq]
    simp [hna]
  · intro hlate
    rw [InstanceStatusHistory.get_active_time_eq]
    by_cases hact : InstanceStatusHistory.is_active h
    · simp [hact, hlate]
    · simp [hact]
  · intro e l ed hed hact hel hse hend
    rw [InstanceStatusHistory.get_active_time_eq]
    simp only [InstanceStatusHistory.final_time, hed, hact]
    split_ifs <;> simp_all <;> omega

/-- C6 witness: a concrete active row [0, 10] inside the window [-1, 20] yields
duration 10, and a concrete suspended row yields duration 0. -/
theorem C6_get_active_time_witness :
    (InstanceStatusHistory.get_active_time c7row1 100 (some (-1)) (some 20)).1 =
      10 - c7row1.start_date ∧
    (InstanceStatusHistory.get_active_time c7row2 100 none none).1 = 0 :=
  ⟨(C6_get_active_time c7row1 100 (some (-1)) (some 20)).2.2 (-1) 20 10 rfl rfl
      (by decide) (by decide) (by decide),
    (C6_get_active_time c7row2 100 none none).1 rfl⟩

/-- C2 counterexample: handing `transaction` an already-closed `last_history`
does not fail as a no-op: the call commits, overwriting the closed row's end
date and appending a new row, so the store changes. -/
theorem C2_counterexample :
    InstanceStatusHistory.transaction c2inst "suspended" "idle" 10 1
        (some c2row) = Except.ok c2result ∧
      c2result ≠ c2inst := ⟨rfl, by decide⟩

/-- C2 (amended): when `transaction` is called without a supplied
`last_history` and the instance has no open history row to close (no history at
all, or the latest history row is already closed), the transaction aborts with
an error and no partial write is persisted (the atomic block of the model
returns no store on the error path). -/
theorem C2_transaction_no_open_row (inst : Inst) (sn act : String) (t : Int)
    (nid : Nat)
    (hbad : InstanceStatusHistory.get_last_history inst = none ∨
      ∃ lh, InstanceStatusHistory.get_last_history inst = some lh ∧
        lh.end_date ≠ none) :
    txSucceeded (InstanceStatusHistory.transaction inst sn act t nid none) =
      false := by
  unfold InstanceStatusHistory.transaction
  rcases hbad with hnone | ⟨lh, hlh, hend⟩
  · simp [hnone, txSucceeded]
  · simp [hlh, hend, txSucceeded]

/-- C2 witness: on an instance whose latest history row is already closed,
calling `transaction` without a supplied row aborts. -/
theorem C2_transaction_no_open_row_witness :
    txSucceeded (InstanceStatusHistory.transaction c2inst "active" "" 10 2
      none) = false :=
  C2_transaction_no_open_row c2inst "active" "" 10 2
    (Or.inr ⟨c2row, rfl, by decide⟩)

/-- C7: evaluating the code at the failing input.  On the middle row of a
well-formed three-row chain, `previous` does not return the chronologically
previous row (the source queries `start_date == self.end_date`, the forward
direction, and its body has no return statement, so Python returns None), while
`next` on the same row does return the adjacent later row. -/
theorem C7_previous_returns_nothing :
    InstanceStatusHistory.previous c7inst c7row2 =
        InstanceStatusHistory.HistStep.noneRow ∧
      InstanceStatusHistory.next c7inst c7row2 =
        InstanceStatusHistory.HistStep.row c7row3 := ⟨rfl, rfl⟩

/-- C3: in a store holding exactly one application with exactly one version and
exactly one current machine, `remove_machine` end-dates machine, version and
application in the same pass; in a store holding one application with two
versions, each with one current machine, end-dating one machine end-dates its
version but leaves the application current, because the sibling version is
still current. -/
theorem C3_remove_machine_cascade (now : Nat) :
    (∀ (m : Machine) (v : Version) (a : App) mm vm am gs rq,
      m.end_date = none → m.versionId = v.id → v.appId = a.id →
      remove_machine ⟨[m], [v], [a], mm, vm, am, gs, rq⟩ m now =
        ⟨[{ m with end_date := some now }], [{ v with end_date := some now }],
          [{ a with end_date := some now }], mm, vm, am, gs, rq⟩) ∧
    (∀ (m1 m2 : Machine) (v1 v2 : Version) (a : App) mm vm am gs rq,
      m1.end_date = none → m2.end_date = none → v2.end_date = none →
      m1.versionId = v1.id → m2.versionId = v2.id →
      v1.appId = a.id → v2.appId = a.id →
      v1.id ≠ v2.id → m1.id ≠ m2.id →
      remove_machine ⟨[m1, m2], [v1, v2], [a], mm, vm, am, gs, rq⟩ m1 now =
        ⟨[{ m1 with end_date := some now }, m2],
          [{ v1 with end_date := some now }, v2], [a], mm, vm, am, gs, rq⟩) := by
  constructor
  · intro m v a mm vm am gs rq hcur hmv hva
    simp [remove_machine, only_current, hmv, hva]
  · intro m1 m2 v1 v2 a mm vm am gs rq h1 h2 h3 hm1 hm2 hv1 hv2 hne hnem
    simp [remove_machine, only_current, hm1, hm2, hv1, hv2, hne, Ne.symm hne,
      hnem, Ne.symm hnem, h3]

/-- C3 witness: both scenarios at concrete stores. -/
theorem C3_remove_machine_cascade_witness :
    remove_machine ⟨[⟨0, 5, 0, none⟩], [⟨0, 0, none⟩], [⟨0, none⟩],
        [], [], [], [], []⟩ ⟨0, 5, 0, none⟩ 7 =
      ⟨[⟨0, 5, 0, some 7⟩], [⟨0, 0, some 7⟩], [⟨0, some 7⟩],
        [], [], [], [], []⟩ ∧
    remove_machine ⟨[⟨0, 5, 0, none⟩, ⟨1, 6, 1, none⟩],
        [⟨0, 0, none⟩, ⟨1, 0, none⟩], [⟨0, none⟩], [], [], [], [], []⟩
        ⟨0, 5, 0, none⟩ 7 =
      ⟨[⟨0, 5, 0, some 7⟩, ⟨1, 6, 1, none⟩],
        [⟨0, 0, some 7⟩, ⟨1, 0, none⟩], [⟨0, none⟩], [], [], [], [], []⟩ :=
  ⟨(C3_remove_machine_cascade 7).1 ⟨0, 5, 0, none⟩ ⟨0, 0, none⟩ ⟨0, none⟩
      [] [] [] [] [] rfl rfl rfl,
    (C3_remove_machine_cascade 7).2 ⟨0, 5, 0, none⟩ ⟨1, 6, 1, none⟩
      ⟨0, 0, none⟩ ⟨1, 0, none⟩ ⟨0, none⟩ [] [] [] [] [] rfl rfl rfl rfl rfl
      rfl rfl (by decide) (by decide)⟩

/-- C10: when the validated cloud snapshot is empty and forced_removal is
false, `prune_machines_for` returns before performing any mutation: the store
is entirely unchanged. -/
theorem C10_empty_snapshot_guard (st : Store) (raw_cloud : List Nat)
    (valid : Nat → Bool) (validate : Bool) (now : Nat)
    (hempty : raw_cloud.filter (fun c => !validate || valid c) = []) :
    prune_machines_for st raw_cloud valid validate false now = st := by
  unfold prune_machines_for
  simp [hempty]

/-- C10 witness: a snapshot whose every image fails validation leaves a
populated store untouched. -/
theorem C10_empty_snapshot_guard_witness :
    prune_machines_for c10store [5] (fun _ => false) true false 9 = c10store :=
  C10_empty_snapshot_guard c10store [5] (fun _ => false) true 9 rfl

theorem update_db_membership_for_group_spec (st : Store) (m : Machine)
    (g : Nat) :
    ((update_db_membership_for_group st m g).machineMembers =
        st.machineMembers ∨
      (update_db_membership_for_group st m g).machineMembers =
        st.machineMembers ++ [(m.id, g)]) ∧
    ((update_db_membership_for_group st m g).versionMembers =
        st.versionMembers ∨
      (update_db_membership_for_group st m g).versionMembers =
        st.versionMembers ++ [(m.versionId, g)]) ∧
    (update_db_membership_for_group st m g).appMembers = st.appMembers := by
  unfold update_db_membership_for_group
  by_cases h1 : (m.id, g) ∈ st.machineMembers <;>
    by_cases h2 : (m.versionId, g) ∈ st.versionMembers <;>
    simp [h1, h2]

theorem foldl_update_db_membership_mono (gs : List Nat) (st : Store)
    (m : Machine) :
    (∀ p ∈ st.machineMembers,
      p ∈ (gs.foldl (fun acc g => update_db_membership_for_group acc m g)
        st).machineMembers) ∧
    (∀ p ∈ st.versionMembers,
      p ∈ (gs.foldl (fun acc g => update_db_membership_for_group acc m g)
        st).versionMembers) ∧
    (gs.foldl (fun acc g => update_db_membership_for_group acc m g)
        st).appMembers = st.appMembers := by
  induction gs generalizing st with
  | nil => simp
  | cons g t ih =>
    obtain ⟨h1, h2, h3⟩ :=
      update_db_membership_for_group_spec st m g
    obtain ⟨i1, i2, i3⟩ := ih (update_db_membership_for_group st m g)
    refine ⟨?_, ?_, ?_⟩
    · intro p hp
      refine i1 p ?_
      rcases h1 with he | he <;> rw [he] <;> simp [hp]
    · intro p hp
      refine i2 p ?_
      rcases h2 with he | he <;> rw [he] <;> simp [hp]
    · rw [List.foldl_cons, i3, h3]

theorem add_application_membership_spec (gs : List Nat) (st : Store)
    (appId : Nat) (dry_run : Bool) :
    (∀ p ∈ st.appMembers,
      p ∈ (add_application_membership st appId gs dry_run).appMembers) ∧
    (add_application_membership st appId gs dry_run).machineMembers =
      st.machineMembers ∧
    (add_application_membership st appId gs dry_run).versionMembers =
      st.versionMembers := by
  unfold add_application_membership
  induction gs generalizing st with
  | nil => exact ⟨fun p hp => hp, rfl, rfl⟩
  | cons g t ih =>
    simp only [List.foldl_cons]
    have hstep : ∀ s : Store,
        (if (s.appMembers.filter
              (fun p => p.1 == appId && p.2 == g)).length == 0 then
          (if !dry_run then
            { s with appMembers := s.appMembers ++ [(appId, g)] } else s)
        else s) = s ∨
        (if (s.appMembers.filter
              (fun p => p.1 == appId && p.2 == g)).length == 0 then
          (if !dry_run then
            { s with appMembers := s.appMembers ++ [(appId, g)] } else s)
        else s) = { s with appMembers := s.appMembers ++ [(appId, g)] } := by
      intro s
      split
      · split
        · right; rfl
        · left; rfl
      · left; rfl
    rcases hstep st with he | he <;> rw [he]
    · exact ih st
    · obtain ⟨i1, i2, i3⟩ :=
        ih { st with appMembers := st.appMembers ++ [(appId, g)] }
      refine ⟨fun p hp => i1 p ?_, i2, i3⟩
      simp [hp]

/-- C8: one run of image-membership reconciliation never removes an existing
membership grant: every pre-existing ProviderMachineMembership and
ApplicationVersionMembership row survives `update_image_membership` (which
leaves ApplicationMembership untouched), and every pre-existing
ApplicationMembership row survives `add_application_membership` (which leaves
the other two tables untouched); the passes only create missing join rows. -/
theorem C8_membership_monotonic (st : Store) (db_machine : Machine)
    (visibility : String) (image_owner : Option Nat) (cloud_shared : List Nat)
    (machine_request_access : Option (List Nat)) (app_access : List Nat)
    (appId : Nat) (identity_groups : List Nat) (dry_run : Bool) :
    (∀ p ∈ st.machineMembers,
      p ∈ (update_image_membership st db_machine visibility image_owner
        cloud_shared machine_request_access app_access).machineMembers) ∧
    (∀ p ∈ st.versionMembers,
      p ∈ (update_image_membership st db_machine visibility image_owner
        cloud_shared machine_request_access app_access).versionMembers) ∧
    (update_image_membership st db_machine visibility image_owner cloud_shared
        machine_request_access app_access).appMembers = st.appMembers ∧
    (∀ p ∈ st.appMembers,
      p ∈ (add_application_membership st appId identity_groups
        dry_run).appMembers) ∧
    (add_application_membership st appId identity_groups
        dry_run).machineMembers = st.machineMembers ∧
    (add_application_membership st appId identity_groups
        dry_run).versionMembers = st.versionMembers := by
  obtain ⟨a1, a2, a3⟩ :=
    add_application_membership_spec identity_groups st appId dry_run
  have hu : (∀ p ∈ st.machineMembers,
        p ∈ (update_image_membership st db_machine visibility image_owner
          cloud_shared machine_request_access app_access).machineMembers) ∧
      (∀ p ∈ st.versionMembers,
        p ∈ (update_image_membership st db_machine visibility image_owner
          cloud_shared machine_request_access app_access).versionMembers) ∧
      (update_image_membership st db_machine visibility image_owner
        cloud_shared machine_request_access app_access).appMembers =
        st.appMembers := by
    unfold update_image_membership
    split
    · exact ⟨fun p hp => hp, fun p hp => hp, rfl⟩
    · dsimp only
      split
      · exact ⟨fun p hp => hp, fun p hp => hp, rfl⟩
      · exact foldl_update_db_membership_mono _ st db_machine
  exact ⟨hu.1, hu.2.1, hu.2.2, a1, a2, a3⟩

theorem remove_membership_frame (st : Store) (vId g : Nat) :
    (remove_membership st vId g).machines = st.machines ∧
    (remove_membership st vId g).versions = st.versions ∧
    (remove_membership st vId g).apps = st.apps ∧
    (remove_membership st vId g).groups = st.groups ∧
    (remove_membership st vId g).requests = st.requests := by
  unfold remove_membership
  split
  · exact ⟨rfl, rfl, rfl, rfl, rfl⟩
  · split
    · exact ⟨rfl, rfl, rfl, rfl, rfl⟩
    · exact ⟨rfl, rfl, rfl, rfl, rfl⟩

theorem remove_membership_of_no_request (st : Store) (vId g : Nat)
    (h : (st.requests.filter (fun r => r.1 == vId)).getLast? = none) :
    remove_membership st vId g = st := by
  unfold remove_membership
  rw [h]

theorem remove_membership_noop (st : Store) (vId g : Nat)
    (mr : Nat × List Nat)
    (hmr : (st.requests.filter (fun r => r.1 == vId)).getLast? = some mr)
    (hg : mr.2.contains g = true) :
    remove_membership st vId g = st := by
  unfold remove_membership
  rw [hmr]
  dsimp only
  rw [if_pos hg]

theorem remove_membership_parts (st : Store) (vId g : Nat)
    (mr : Nat × List Nat)
    (hmr : (st.requests.filter (fun r => r.1 == vId)).getLast? = some mr)
    (hg : mr.2.contains g = false) :
    (remove_membership st vId g).machineMembers =
      st.machineMembers.filter
        (fun p =>
          !(((st.machines.filter (fun x => x.versionId == vId)).map
              (fun x => x.id)).contains p.1 && p.2 == g)) ∧
    (remove_membership st vId g).versionMembers =
      st.versionMembers.filter (fun p => !(p.1 == vId && p.2 == g)) ∧
    (remove_membership st vId g).appMembers =
      st.appMembers.filter
        (fun p =>
          !(((st.versions.filter (fun v => v.id == vId)).map
              (fun v => v.appId)).contains p.1 && p.2 == g)) := by
  unfold remove_membership
  rw [hmr]
  dsimp only
  rw [if_neg (fun hcontra => by rw [hg] at hcontra; exact absurd hcontra (by decide))]
  exact ⟨rfl, rfl, rfl⟩

theorem foldl_remove_membership_frame (T : List Nat) (st : Store) (vId : Nat) :
    (T.foldl (fun a g => remove_membership a vId g) st).machines =
      st.machines ∧
    (T.foldl (fun a g => remove_membership a vId g) st).versions =
      st.versions ∧
    (T.foldl (fun a g => remove_membership a vId g) st).apps = st.apps ∧
    (T.foldl (fun a g => remove_membership a vId g) st).groups = st.groups ∧
    (T.foldl (fun a g => remove_membership a vId g) st).requests =
      st.requests := by
  induction T generalizing st with
  | nil => exact ⟨rfl, rfl, rfl, rfl, rfl⟩
  | cons g t ih =>
    obtain ⟨f1, f2, f3, f5, f6⟩ := remove_membership_frame st vId g
    obtain ⟨i1, i2, i3, i5, i6⟩ := ih (remove_membership st vId g)
    exact ⟨i1.trans f1, i2.trans f2, i3.trans f3, i5.trans f5,
      i6.trans f6⟩

theorem foldl_remove_membership_no_request (T : List Nat) (st : Store)
    (vId : Nat)
    (h : (st.requests.filter (fun r => r.1 == vId)).getLast? = none) :
    T.foldl (fun a g => remove_membership a vId g) st = st := by
  induction T with
  | nil => rfl
  | cons g t ih =>
    rw [List.foldl_cons, remove_membership_of_no_request st vId g h]
    exact ih

theorem foldl_remove_membership_of_request (T : List Nat) (st : Store)
    (vId : Nat) (mr : Nat × List Nat)
    (hmr : (st.requests.filter (fun r => r.1 == vId)).getLast? = some mr) :
    (T.foldl (fun a g => remove_membership a vId g) st).machineMembers =
      st.machineMembers.filter
        (fun p =>
          !(((st.machines.filter (fun x => x.versionId == vId)).map
                (fun x => x.id)).contains p.1 &&
              T.contains p.2 && !mr.2.contains p.2)) ∧
    (T.foldl (fun a g => remove_membership a vId g) st).versionMembers =
      st.versionMembers.filter
        (fun p => !(p.1 == vId && T.contains p.2 && !mr.2.contains p.2)) ∧
    (T.foldl (fun a g => remove_membership a vId g) st).appMembers =
      st.appMembers.filter
        (fun p =>
          !(((st.versions.filter (fun v => v.id == vId)).map
                (fun v => v.appId)).contains p.1 &&
              T.contains p.2 && !mr.2.contains p.2)) := by
  induction T generalizing st with
  | nil =>
    refine ⟨?_, ?_, ?_⟩ <;>
      · symm
        apply List.filter_eq_self.mpr
        intro p hp
        simp
  | cons g t ih =>
    obtain ⟨f1, f2, f3, f5, f6⟩ := remove_membership_frame st vId g
    have hmr1 : ((remove_membership st vId g).requests.filter
        (fun r => r.1 == vId)).getLast? = some mr := by
      rw [f6]; exact hmr
    obtain ⟨i1, i2, i3⟩ := ih (remove_membership st vId g) hmr1
    simp only [List.foldl_cons]
    by_cases hg : mr.2.contains g = true
    · have hst : remove_membership st vId g = st :=
        remove_membership_noop st vId g mr hmr hg
      rw [hst] at i1 i2 i3 ⊢
      refine ⟨i1.trans ?_, i2.trans ?_, i3.trans ?_⟩ <;>
        · apply List.filter_congr
          intro p hp
          by_cases hpg : p.2 = g
          · have haccP : g ∈ mr.2 := by simpa using hg
            simp [List.contains_cons, hpg, haccP]
          · simp [List.contains_cons, hpg]
    · have hg' : mr.2.contains g = false := by simpa using hg
      have hgP : g ∉ mr.2 := by simpa using hg'
      obtain ⟨p1, p2, p3⟩ := remove_membership_parts st vId g mr hmr hg'
      refine ⟨?_, ?_, ?_⟩
      · rw [i1, f1, p1, List.filter_filter]
        apply List.filter_congr
        intro p hp
        by_cases hpg : p.2 = g
        · by_cases hA : p.1 ∈ (st.machines.filter
              (fun x => x.versionId == vId)).map (fun x => x.id) <;>
            by_cases hT : p.2 ∈ t <;>
            simp [List.contains_cons, hpg, hgP, hA, hT]
        · simp [List.contains_cons, hpg]
      · rw [i2, p2, List.filter_filter]
        apply List.filter_congr
        intro p hp
        by_cases hpg : p.2 = g
        · by_cases hA : p.1 = vId <;>
            by_cases hT : p.2 ∈ t <;>
            simp [List.contains_cons, hpg, hgP, hA, hT]
        · simp [List.contains_cons, hpg]
      · rw [i3, f2, p3, List.filter_filter]
        apply List.filter_congr
        intro p hp
        by_cases hpg : p.2 = g
        · by_cases hA : p.1 ∈ (st.versions.filter
              (fun v => v.id == vId)).map (fun v => v.appId) <;>
            by_cases hT : p.2 ∈ t <;>
            simp [List.contains_cons, hpg, hgP, hA, hT]
        · simp [List.contains_cons, hpg]

theorem clean_one_no_request (st : Store) (m : Machine)
    (h : (st.requests.filter (fun r => r.1 == m.versionId)).getLast? = none) :
    clean_one st m = st := by
  unfold clean_one
  split
  · rfl
  · dsimp only
    split_ifs <;> first
      | rfl
      | exact foldl_remove_membership_no_request _ st m.versionId h

theorem clean_one_skip (st : Store) (m : Machine) (dv : Version)
    (hfind : st.versions.find? (fun v => v.id == m.versionId) = some dv)
    (h1 : (st.machineMembers.filter (fun p => p.1 == m.id)).length < 128)
    (h2 : (st.versionMembers.filter
      (fun p => p.1 == m.versionId)).length < 128)
    (h3 : (st.appMembers.filter (fun p => p.1 == dv.appId)).length < 128) :
    clean_one st m = st := by
  unfold clean_one
  rw [hfind]
  dsimp only
  have h1m : ((st.machineMembers.filter
      (fun p => p.1 == m.id)).map (fun p => p.2)).length < 128 := by
    simpa using h1
  have h2m : ((st.versionMembers.filter
      (fun p => p.1 == m.versionId)).map (fun p => p.2)).length < 128 := by
    simpa using h2
  have h3m : ((st.appMembers.filter
      (fun p => p.1 == dv.appId)).map (fun p => p.2)).length < 128 := by
    simpa using h3
  rw [if_pos h1m, if_pos h2m, if_pos h3m]

theorem clean_one_reset (st : Store) (m : Machine) (dv : Version)
    (mr : Nat × List Nat)
    (hfind : st.versions.find? (fun v => v.id == m.versionId) = some dv)
    (hmr : (st.requests.filter (fun r => r.1 == m.versionId)).getLast? =
      some mr)
    (h128 : 128 ≤ (st.machineMembers.filter (fun p => p.1 == m.id)).length)
    (hm : m ∈ st.machines) :
    (clean_one st m).machineMembers.filter (fun p => p.1 == m.id) =
      (st.machineMembers.filter (fun p => p.1 == m.id)).filter
        (fun p => mr.2.contains p.2) := by
  unfold clean_one
  rw [hfind]
  dsimp only
  have hn : ¬ ((st.machineMembers.filter
      (fun p => p.1 == m.id)).map (fun p => p.2)).length < 128 := by
    simp only [List.length_map]
    exact Nat.not_lt.mpr h128
  rw [if_neg hn, if_neg hn, if_neg hn]
  obtain ⟨e1, -, -⟩ := foldl_remove_membership_of_request
    ((st.machineMembers.filter (fun p => p.1 == m.id)).map (fun p => p.2))
    st m.versionId mr hmr
  rw [e1, List.filter_filter, List.filter_filter]
  apply List.filter_congr
  intro p hp
  by_cases hA : p.1 = m.id
  · have hvm : p.1 ∈ (st.machines.filter
        (fun x => x.versionId == m.versionId)).map (fun x => x.id) := by
      rw [hA]
      exact List.mem_map.mpr ⟨m, List.mem_filter.mpr ⟨hm, by simp⟩, rfl⟩
    have hT : p.2 ∈ (st.machineMembers.filter
        (fun p => p.1 == m.id)).map (fun p => p.2) :=
      List.mem_map.mpr ⟨p, List.mem_filter.mpr ⟨hp, by simp [hA]⟩, rfl⟩
    by_cases hacc : p.2 ∈ mr.2
    · simp [hA, hacc]
    · simp [hA, hacc, hvm, hT]
      exact ⟨m, ⟨hm, rfl⟩, rfl⟩
  · have hb : (p.1 == m.id) = false := by simpa using hA
    simp [hb]

theorem clean_one_reset_version (st : Store) (m : Machine) (dv : Version)
    (mr : Nat × List Nat)
    (hfind : st.versions.find? (fun v => v.id == m.versionId) = some dv)
    (hmr : (st.requests.filter (fun r => r.1 == m.versionId)).getLast? =
      some mr)
    (h1 : (st.machineMembers.filter (fun p => p.1 == m.id)).length < 128)
    (h128 : 128 ≤ (st.versionMembers.filter
      (fun p => p.1 == m.versionId)).length) :
    (clean_one st m).versionMembers.filter (fun p => p.1 == m.versionId) =
      (st.versionMembers.filter (fun p => p.1 == m.versionId)).filter
        (fun p => mr.2.contains p.2) := by
  unfold clean_one
  rw [hfind]
  dsimp only
  have h1m : ((st.machineMembers.filter
      (fun p => p.1 == m.id)).map (fun p => p.2)).length < 128 := by
    simpa using h1
  have hn : ¬ ((st.versionMembers.filter
      (fun p => p.1 == m.versionId)).map (fun p => p.2)).length < 128 := by
    simp only [List.length_map]
    exact Nat.not_lt.mpr h128
  rw [if_pos h1m, if_neg hn, if_neg hn]
  obtain ⟨-, e2, -⟩ := foldl_remove_membership_of_request
    ((st.versionMembers.filter (fun p => p.1 == m.versionId)).map
      (fun p => p.2))
    st m.versionId mr hmr
  rw [e2, List.filter_filter, List.filter_filter]
  apply List.filter_congr
  intro p hp
  by_cases hA : p.1 = m.versionId
  · have hT : p.2 ∈ (st.versionMembers.filter
        (fun p => p.1 == m.versionId)).map (fun p => p.2) :=
      List.mem_map.mpr ⟨p, List.mem_filter.mpr ⟨hp, by simp [hA]⟩, rfl⟩
    by_cases hacc : p.2 ∈ mr.2
    · simp [hA, hacc]
    · simp [hA, hacc, hT]
  · have hb : (p.1 == m.versionId) = false := by simpa using hA
    simp [hb]

theorem clean_one_reset_app (st : Store) (m : Machine) (dv : Version)
    (mr : Nat × List Nat)
    (hfind : st.versions.find? (fun v => v.id == m.versionId) = some dv)
    (hmr : (st.requests.filter (fun r => r.1 == m.versionId)).getLast? =
      some mr)
    (h1 : (st.machineMembers.filter (fun p => p.1 == m.id)).length < 128)
    (h2 : (st.versionMembers.filter
      (fun p => p.1 == m.versionId)).length < 128)
    (h128 : 128 ≤ (st.appMembers.filter (fun p => p.1 == dv.appId)).length) :
    (clean_one st m).appMembers.filter (fun p => p.1 == dv.appId) =
      (st.appMembers.filter (fun p => p.1 == dv.appId)).filter
        (fun p => mr.2.contains p.2) := by
  unfold clean_one
  rw [hfind]
  dsimp only
  have h1m : ((st.machineMembers.filter
      (fun p => p.1 == m.id)).map (fun p => p.2)).length < 128 := by
    simpa using h1
  have h2m : ((st.versionMembers.filter
      (fun p => p.1 == m.versionId)).map (fun p => p.2)).length < 128 := by
    simpa using h2
  have hn : ¬ ((st.appMembers.filter
      (fun p => p.1 == dv.appId)).map (fun p => p.2)).length < 128 := by
    simp only [List.length_map]
    exact Nat.not_lt.mpr h128
  rw [if_pos h1m, if_pos h2m, if_neg hn]
  obtain ⟨-, -, e3⟩ := foldl_remove_membership_of_request
    ((st.appMembers.filter (fun p => p.1 == dv.appId)).map (fun p => p.2))
    st m.versionId mr hmr
  rw [e3, List.filter_filter, List.filter_filter]
  apply List.filter_congr
  intro p hp
  by_cases hA : p.1 = dv.appId
  · have hdvmem : dv ∈ st.versions := List.mem_of_find?_eq_some hfind
    have hdvid : (dv.id == m.versionId) = true := by
      have hq := List.find?_some hfind
      simpa using hq
    have hva : p.1 ∈ (st.versions.filter
        (fun v => v.id == m.versionId)).map (fun v => v.appId) := by
      rw [hA]
      exact List.mem_map.mpr ⟨dv, List.mem_filter.mpr ⟨hdvmem, hdvid⟩, rfl⟩
    have hT : p.2 ∈ (st.appMembers.filter
        (fun p => p.1 == dv.appId)).map (fun p => p.2) :=
      List.mem_map.mpr ⟨p, List.mem_filter.mpr ⟨hp, by simp [hA]⟩, rfl⟩
    by_cases hacc : p.2 ∈ mr.2
    · simp [hA, hacc]
    · simp [hA, hacc, hva, hT]
      exact ⟨dv, ⟨hdvmem, by simpa using hdvid⟩, rfl⟩
  · have hb : (p.1 == dv.appId) = false := by simpa using hA
    simp [hb]

/-- C5 (amended): the membership-set integrity check triggers at 128 or more
entries, not strictly more than 128.  For a machine whose shared-access sets at
all three cascading granularities hold at most 127 entries, the cleanup leaves
the store unchanged; when no completed MachineRequest exists for the version,
the machine is skipped (store unchanged); when a completed MachineRequest
exists, the set at the first granularity holding 128 or more entries (machine,
else version, else application) is reset to exactly its members on the
request's access list. -/
theorem C5_membership_integrity (st : Store) (m : Machine) :
    ((st.requests.filter (fun r => r.1 == m.versionId)).getLast? = none →
      clean_one st m = st) ∧
    (∀ dv, st.versions.find? (fun v => v.id == m.versionId) = some dv →
      (st.machineMembers.filter (fun p => p.1 == m.id)).length < 128 →
      (st.versionMembers.filter (fun p => p.1 == m.versionId)).length < 128 →
      (st.appMembers.filter (fun p => p.1 == dv.appId)).length < 128 →
      clean_one st m = st) ∧
    (∀ dv mr, st.versions.find? (fun v => v.id == m.versionId) = some dv →
      (st.requests.filter (fun r => r.1 == m.versionId)).getLast? = some mr →
      128 ≤ (st.machineMembers.filter (fun p => p.1 == m.id)).length →
      m ∈ st.machines →
      (clean_one st m).machineMembers.filter (fun p => p.1 == m.id) =
        (st.machineMembers.filter (fun p => p.1 == m.id)).filter
          (fun p => mr.2.contains p.2)) ∧
    (∀ dv mr, st.versions.find? (fun v => v.id == m.versionId) = some dv →
      (st.requests.filter (fun r => r.1 == m.versionId)).getLast? = some mr →
      (st.machineMembers.filter (fun p => p.1 == m.id)).length < 128 →
      128 ≤ (st.versionMembers.filter
        (fun p => p.1 == m.versionId)).length →
      (clean_one st m).versionMembers.filter (fun p => p.1 == m.versionId) =
        (st.versionMembers.filter (fun p => p.1 == m.versionId)).filter
          (fun p => mr.2.contains p.2)) ∧
    (∀ dv mr, st.versions.find? (fun v => v.id == m.versionId) = some dv →
      (st.requests.filter (fun r => r.1 == m.versionId)).getLast? = some mr →
      (st.machineMembers.filter (fun p => p.1 == m.id)).length < 128 →
      (st.versionMembers.filter (fun p => p.1 == m.versionId)).length < 128 →
      128 ≤ (st.appMembers.filter (fun p => p.1 == dv.appId)).length →
      (clean_one st m).appMembers.filter (fun p => p.1 == dv.appId) =
        (st.appMembers.filter (fun p => p.1 == dv.appId)).filter
          (fun p => mr.2.contains p.2)) :=
  ⟨clean_one_no_request st m,
    fun dv => clean_one_skip st m dv,
    fun dv mr => clean_one_reset st m dv mr,
    fun dv mr => clean_one_reset_version st m dv mr,
    fun dv mr => clean_one_reset_app st m dv mr⟩

set_option maxRecDepth 8000 in
/-- C5 counterexample: a machine whose machine-granularity shared-access set
holds exactly 128 entries (and 0 at the version and application granularities)
is not left unchanged: the integrity check triggers at 128 already, refuting
the claim that only sets exceeding 128 entries are reset. -/
theorem C5_counterexample :
    (c5store.machineMembers.filter (fun p => p.1 == 0)).length = 128 ∧
    c5store.versionMembers.length = 0 ∧
    c5store.appMembers.length = 0 ∧
    clean_one c5store ⟨0, 5, 0, none⟩ ≠ c5store := by
  refine ⟨by decide, rfl, rfl, by decide⟩

set_option maxRecDepth 8000 in
/-- C5 witness: the skip outcome on a store with a single small membership set
and no request, and the reset outcome on the 128-entry store at each of the
three granularities in turn. -/
theorem C5_membership_integrity_witness :
    clean_one c10store ⟨0, 5, 0, none⟩ = c10store ∧
    ((clean_one c5store ⟨0, 5, 0, none⟩).machineMembers.filter
        (fun p => p.1 == 0) =
      (c5store.machineMembers.filter (fun p => p.1 == 0)).filter
        (fun p => [0].contains p.2)) ∧
    ((clean_one c5vstore ⟨0, 5, 0, none⟩).versionMembers.filter
        (fun p => p.1 == 0) =
      (c5vstore.versionMembers.filter (fun p => p.1 == 0)).filter
        (fun p => [0].contains p.2)) ∧
    ((clean_one c5astore ⟨0, 5, 0, none⟩).appMembers.filter
        (fun p => p.1 == 0) =
      (c5astore.appMembers.filter (fun p => p.1 == 0)).filter
        (fun p => [0].contains p.2)) :=
  ⟨(C5_membership_integrity c10store ⟨0, 5, 0, none⟩).1 rfl,
    (C5_membership_integrity c5store ⟨0, 5, 0, none⟩).2.2.1 ⟨0, 0, none⟩
      (0, [0]) rfl rfl (by decide) (by decide),
    (C5_membership_integrity c5vstore ⟨0, 5, 0, none⟩).2.2.2.1 ⟨0, 0, none⟩
      (0, [0]) rfl rfl (by decide) (by decide),
    (C5_membership_integrity c5astore ⟨0, 5, 0, none⟩).2.2.2.2 ⟨0, 0, none⟩
      (0, [0]) rfl rfl (by decide) (by decide) (by decide)⟩

/-! ### Helper lemmas for the reconciliation idempotence analysis (C4) -/

theorem map_id_of_eq {α : Type} (l : List α) (f : α → α)
    (h : ∀ x ∈ l, f x = x) : l.map f = l := by
  induction l with
  | nil => rfl
  | cons x t ih =>
    rw [List.map_cons, h x (List.mem_cons_self x t),
      ih (fun y hy => h y (List.mem_cons_of_mem x hy))]

theorem nodup_key {α β : Type} (l : List α) (f : α → β)
    (h : (l.map f).Nodup) :
    ∀ x ∈ l, ∀ y ∈ l, f x = f y → x = y := by
  induction l with
  | nil =>
    intro x hx
    exact absurd hx (List.not_mem_nil x)
  | cons a t ih =>
    rw [List.map_cons, List.nodup_cons] at h
    intro x hx y hy hxy
    rcases List.mem_cons.mp hx with rfl | hx2 <;>
      rcases List.mem_cons.mp hy with rfl | hy2
    · rfl
    · exact absurd (hxy ▸ List.mem_map_of_mem f hy2) h.1
    · exact absurd (hxy ▸ List.mem_map_of_mem f hx2) h.1
    · exact ih h.2 x hx2 y hy2 hxy

theorem MachUpd_id : MachUpd (fun x => x) := fun _ => Or.inl rfl

theorem MachUpd_comp {F G} (hF : MachUpd F) (hG : MachUpd G) :
    MachUpd (fun x => G (F x)) := by
  intro x
  rcases hF x with h1 | ⟨t, h1⟩ <;> rcases hG (F x) with h2 | ⟨u, h2⟩
  · exact Or.inl (by dsimp only; rw [h2, h1])
  · exact Or.inr ⟨u, by dsimp only; rw [h2, h1]⟩
  · exact Or.inr ⟨t, by dsimp only; rw [h2, h1]⟩
  · exact Or.inr ⟨u, by dsimp only; rw [h2, h1]⟩

theorem MachUpd_cond (c : Machine → Bool) (now : Nat) :
    MachUpd (fun x => if c x then { x with end_date := some now } else x) := by
  intro x
  by_cases h : c x = true
  · exact Or.inr ⟨now, by dsimp only; rw [if_pos h]⟩
  · exact Or.inl (by dsimp only; rw [if_neg h])

theorem MachUpd_fields {F} (h : MachUpd F) (x : Machine) :
    (F x).id = x.id ∧ (F x).identifier = x.identifier ∧
      (F x).versionId = x.versionId := by
  rcases h x with he | ⟨t, he⟩ <;> rw [he] <;> exact ⟨rfl, rfl, rfl⟩

theorem MachUpd_current_eq {F} (h : MachUpd F) (x : Machine)
    (hx : (F x).end_date = none) : F x = x := by
  rcases h x with he | ⟨t, he⟩
  · exact he
  · rw [he] at hx
    simp at hx

theorem MachUpd_keep_end {F} (h : MachUpd F) (x : Machine)
    (hx : x.end_date ≠ none) : (F x).end_date ≠ none := by
  rcases h x with he | ⟨t, he⟩ <;> rw [he]
  · exact hx
  · simp

theorem VerUpd_id : VerUpd (fun v => v) := fun _ => Or.inl rfl

theorem VerUpd_comp {F G} (hF : VerUpd F) (hG : VerUpd G) :
    VerUpd (fun v => G (F v)) := by
  intro v
  rcases hF v with h1 | ⟨t, h1⟩ <;> rcases hG (F v) with h2 | ⟨u, h2⟩
  · exact Or.inl (by dsimp only; rw [h2, h1])
  · exact Or.inr ⟨u, by dsimp only; rw [h2, h1]⟩
  · exact Or.inr ⟨t, by dsimp only; rw [h2, h1]⟩
  · exact Or.inr ⟨u, by dsimp only; rw [h2, h1]⟩

theorem VerUpd_cond (c : Version → Bool) (now : Nat) :
    VerUpd (fun v => if c v then { v with end_date := some now } else v) := by
  intro v
  by_cases h : c v = true
  · exact Or.inr ⟨now, by dsimp only; rw [if_pos h]⟩
  · exact Or.inl (by dsimp only; rw [if_neg h])

theorem VerUpd_fields {F} (h : VerUpd F) (v : Version) :
    (F v).id = v.id ∧ (F v).appId = v.appId := by
  rcases h v with he | ⟨t, he⟩ <;> rw [he] <;> exact ⟨rfl, rfl⟩

theorem VerUpd_current_eq {F} (h : VerUpd F) (v : Version)
    (hv : (F v).end_date = none) : F v = v := by
  rcases h v with he | ⟨t, he⟩
  · exact he
  · rw [he] at hv
    simp at hv

theorem VerUpd_keep_end {F} (h : VerUpd F) (v : Version)
    (hv : v.end_date ≠ none) : (F v).end_date ≠ none := by
  rcases h v with he | ⟨t, he⟩ <;> rw [he]
  · exact hv
  · simp

theorem AppUpd_id : AppUpd (fun a => a) := fun _ => Or.inl rfl

theorem AppUpd_comp {F G} (hF : AppUpd F) (hG : AppUpd G) :
    AppUpd (fun a => G (F a)) := by
  intro a
  rcases hF a with h1 | ⟨t, h1⟩ <;> rcases hG (F a) with h2 | ⟨u, h2⟩
  · exact Or.inl (by dsimp only; rw [h2, h1])
  · exact Or.inr ⟨u, by dsimp only; rw [h2, h1]⟩
  · exact Or.inr ⟨t, by dsimp only; rw [h2, h1]⟩
  · exact Or.inr ⟨u, by dsimp only; rw [h2, h1]⟩

theorem AppUpd_cond (c : App → Bool) (now : Nat) :
    AppUpd (fun a => if c a then { a with end_date := some now } else a) := by
  intro a
  by_cases h : c a = true
  · exact Or.inr ⟨now, by dsimp only; rw [if_pos h]⟩
  · exact Or.inl (by dsimp only; rw [if_neg h])

theorem AppUpd_fields {F} (h : AppUpd F) (a : App) : (F a).id = a.id := by
  rcases h a with he | ⟨t, he⟩ <;> rw [he]

theorem AppUpd_current_eq {F} (h : AppUpd F) (a : App)
    (ha : (F a).end_date = none) : F a = a := by
  rcases h a with he | ⟨t, he⟩
  · exact he
  · rw [he] at ha
    simp at ha

theorem AppUpd_keep_end {F} (h : AppUpd F) (a : App)
    (ha : a.end_date ≠ none) : (F a).end_date ≠ none := by
  rcases h a with he | ⟨t, he⟩ <;> rw [he]
  · exact ha
  · simp

theorem PhaseFact_refl (s : Store) : PhaseFact s s :=
  ⟨⟨fun x => x, by simp, MachUpd_id⟩,
    ⟨fun v => v, by simp, VerUpd_id⟩,
    ⟨fun a => a, by simp, AppUpd_id⟩⟩

theorem PhaseFact_trans {s1 s2 s3 : Store} (h12 : PhaseFact s1 s2)
    (h23 : PhaseFact s2 s3) : PhaseFact s1 s3 := by
  obtain ⟨⟨F1, e1, u1⟩, ⟨G1, e2, u2⟩, ⟨H1, e3, u3⟩⟩ := h12
  obtain ⟨⟨F2, f1, v1⟩, ⟨G2, f2, v2⟩, ⟨H2, f3, v3⟩⟩ := h23
  refine ⟨⟨fun x => F2 (F1 x), ?_, MachUpd_comp u1 v1⟩,
    ⟨fun v => G2 (G1 v), ?_, VerUpd_comp u2 v2⟩,
    ⟨fun a => H2 (H1 a), ?_, AppUpd_comp u3 v3⟩⟩
  · rw [f1, e1, List.map_map]; rfl
  · rw [f2, e2, List.map_map]; rfl
  · rw [f3, e3, List.map_map]; rfl

theorem remove_machine_machines (st : Store) (m : Machine) (now : Nat) :
    (remove_machine st m now).machines = st.machines.map
      (fun x => if x.id == m.id then { x with end_date := some now }
                else x) := by
  unfold remove_machine
  dsimp only
  split
  · rfl
  · split
    · rfl
    · split
      · rfl
      · rfl

theorem remove_machine_versions (st : Store) (m : Machine) (now : Nat) :
    (remove_machine st m now).versions = st.versions ∨
    (remove_machine st m now).versions = st.versions.map
      (fun v => if v.id == m.versionId then { v with end_date := some now }
                else v) := by
  unfold remove_machine
  dsimp only
  split
  · exact Or.inl rfl
  · split
    · exact Or.inr rfl
    · split
      · exact Or.inr rfl
      · exact Or.inr rfl

theorem remove_machine_apps (st : Store) (m : Machine) (now : Nat) :
    (remove_machine st m now).apps = st.apps ∨
    ∃ aid, (remove_machine st m now).apps = st.apps.map
      (fun a => if a.id == aid then { a with end_date := some now }
                else a) := by
  unfold remove_machine
  dsimp only
  split
  · exact Or.inl rfl
  · split
    · exact Or.inl rfl
    · rename_i dv _
      split
      · exact Or.inl rfl
      · exact Or.inr ⟨dv.appId, rfl⟩

theorem remove_machine_phase (st : Store) (m : Machine) (now : Nat) :
    PhaseFact st (remove_machine st m now) := by
  refine ⟨⟨_, remove_machine_machines st m now, MachUpd_cond _ now⟩, ?_, ?_⟩
  · rcases remove_machine_versions st m now with h | h
    · exact ⟨fun v => v, by rw [h]; simp, VerUpd_id⟩
    · exact ⟨_, h, VerUpd_cond _ now⟩
  · rcases remove_machine_apps st m now with h | ⟨aid, h⟩
    · exact ⟨fun a => a, by rw [h]; simp, AppUpd_id⟩
    · exact ⟨_, h, AppUpd_cond _ now⟩

theorem end_date_missing_factored (db : List Machine) (st : Store)
    (cloud : List Nat) (now : Nat) :
    ∃ F, (end_date_missing_database_machines st db cloud now).machines =
        st.machines.map F ∧ MachUpd F ∧
      ∀ x, (∃ r ∈ db, cloud.contains r.identifier = false ∧ r.id = x.id) →
        (F x).end_date ≠ none := by
  induction db generalizing st with
  | nil =>
    refine ⟨fun x => x, by simp [end_date_missing_database_machines],
      MachUpd_id, ?_⟩
    rintro x ⟨r, hr, -⟩
    exact absurd hr (List.not_mem_nil r)
  | cons r t ih =>
    have hcons : end_date_missing_database_machines st (r :: t) cloud now =
        end_date_missing_database_machines
          (if cloud.contains r.identifier then st else remove_machine st r now)
          t cloud now := rfl
    by_cases hc : cloud.contains r.identifier = true
    · obtain ⟨F, hF, hupd, hkill⟩ := ih st
      refine ⟨F, ?_, hupd, ?_⟩
      · rw [hcons, if_pos hc]
        exact hF
      · rintro x ⟨r2, hr2, hnc, hid⟩
        rcases List.mem_cons.mp hr2 with rfl | hr2
        · rw [hc] at hnc
          exact absurd hnc (by decide)
        · exact hkill x ⟨r2, hr2, hnc, hid⟩
    · obtain ⟨F, hF, hupd, hkill⟩ := ih (remove_machine st r now)
      have hupd0 : MachUpd (fun x : Machine =>
          if x.id == r.id then { x with end_date := some now } else x) :=
        MachUpd_cond _ now
      refine ⟨fun x => F (if x.id == r.id then { x with end_date := some now }
          else x), ?_, MachUpd_comp hupd0 hupd, ?_⟩
      · rw [hcons, if_neg hc, hF, remove_machine_machines, List.map_map]
        rfl
      · rintro x ⟨r2, hr2, hnc, hid⟩
        rcases List.mem_cons.mp hr2 with rfl | hr2
        · have hb : (x.id == r2.id) = true := by simp [hid]
          dsimp only
          rw [if_pos hb]
          exact MachUpd_keep_end hupd _ (by simp)
        · have hid2 : (if x.id == r.id then
              { x with end_date := some now } else x).id = x.id := by
            split <;> rfl
          exact hkill _ ⟨r2, hr2, hnc, by rw [hid2, hid]⟩

theorem current_matched_after_loop1 (st : Store) (db : List Machine)
    (cloud : List Nat) (now : Nat)
    (hdb : ∀ m ∈ st.machines, m.end_date = none → m ∈ db) :
    ∀ x ∈ (end_date_missing_database_machines st db cloud now).machines,
      x.end_date = none → cloud.contains x.identifier = true := by
  obtain ⟨F, hF, hupd, hkill⟩ := end_date_missing_factored db st cloud now
  intro x hx hnone
  rw [hF] at hx
  obtain ⟨y, hy, rfl⟩ := List.mem_map.mp hx
  have hFy : F y = y := MachUpd_current_eq hupd y hnone
  rw [hFy] at hnone ⊢
  by_contra hnc
  have hnc2 : cloud.contains y.identifier = false := by
    simpa using hnc
  have := hkill y ⟨y, hdb y hy hnone, hnc2, rfl⟩
  rw [hFy] at this
  exact this hnone

theorem version_end_date_all_machines (st : Store) (v : Version) (now : Nat) :
    (version_end_date_all st v now).machines = st.machines.map
      (fun x => if x.versionId == v.id && x.end_date.isNone
                then { x with end_date := some now } else x) := rfl

theorem version_end_date_all_versions (st : Store) (v : Version) (now : Nat) :
    (version_end_date_all st v now).versions = st.versions.map
      (fun w => if w.id == v.id && w.end_date.isNone
                then { w with end_date := some now } else w) := rfl

theorem version_end_date_all_apps (st : Store) (v : Version) (now : Nat) :
    (version_end_date_all st v now).apps = st.apps := rfl

theorem app_end_date_all_machines (st : Store) (a : App) (now : Nat) :
    (app_end_date_all st a now).machines = st.machines.map
      (fun x => if (st.versions.filter (fun v => v.appId == a.id)).any
                    (fun v => v.id == x.versionId) && x.end_date.isNone
                then { x with end_date := some now } else x) := rfl

theorem app_end_date_all_versions (st : Store) (a : App) (now : Nat) :
    (app_end_date_all st a now).versions = st.versions.map
      (fun v => if v.appId == a.id && v.end_date.isNone
                then { v with end_date := some now } else v) := rfl

theorem app_end_date_all_apps (st : Store) (a : App) (now : Nat) :
    (app_end_date_all st a now).apps = st.apps.map
      (fun p => if p.id == a.id && p.end_date.isNone
                then { p with end_date := some now } else p) := rfl

theorem version_end_date_all_phase (st : Store) (v : Version) (now : Nat) :
    PhaseFact st (version_end_date_all st v now) :=
  ⟨⟨_, version_end_date_all_machines st v now, MachUpd_cond _ now⟩,
    ⟨_, version_end_date_all_versions st v now, VerUpd_cond _ now⟩,
    ⟨fun a => a, by rw [version_end_date_all_apps]; simp, AppUpd_id⟩⟩

theorem app_end_date_all_phase (st : Store) (a : App) (now : Nat) :
    PhaseFact st (app_end_date_all st a now) :=
  ⟨⟨_, app_end_date_all_machines st a now, MachUpd_cond _ now⟩,
    ⟨_, app_end_date_all_versions st a now, VerUpd_cond _ now⟩,
    ⟨_, app_end_date_all_apps st a now, AppUpd_cond _ now⟩⟩

theorem foldl_phase {β : Type} (l : List β) (f : Store → β → Store)
    (hf : ∀ st b, PhaseFact st (f st b)) (st : Store) :
    PhaseFact st (l.foldl f st) := by
  induction l generalizing st with
  | nil => exact PhaseFact_refl st
  | cons b t ih => exact PhaseFact_trans (hf st b) (ih (f st b))

theorem end_date_missing_phase (st : Store) (db : List Machine)
    (cloud : List Nat) (now : Nat) :
    PhaseFact st (end_date_missing_database_machines st db cloud now) := by
  unfold end_date_missing_database_machines
  apply foldl_phase
  intro s m
  dsimp only
  by_cases hc : cloud.contains m.identifier = true
  · rw [if_pos hc]
    exact PhaseFact_refl s
  · rw [if_neg hc]
    exact remove_machine_phase s m now

theorem remove_versions_phase (st : Store) (now : Nat) :
    PhaseFact st (remove_versions_without_machines st now) := by
  unfold remove_versions_without_machines
  exact foldl_phase _ _ (fun s v => version_end_date_all_phase s v now) st

theorem remove_applications_phase (st : Store) (now : Nat) :
    PhaseFact st (remove_applications_without_versions st now) := by
  unfold remove_applications_without_versions
  exact foldl_phase _ _ (fun s a => app_end_date_all_phase s a now) st

theorem update_improperly_phase (st : Store) (now : Nat) :
    PhaseFact st (update_improperly_enddated_applications st now) := by
  unfold update_improperly_enddated_applications
  exact foldl_phase _ _ (fun s a => app_end_date_all_phase s a now) st

theorem clean_one_frame (st : Store) (m : Machine) :
    (clean_one st m).machines = st.machines ∧
    (clean_one st m).versions = st.versions ∧
    (clean_one st m).apps = st.apps := by
  unfold clean_one
  split
  · exact ⟨rfl, rfl, rfl⟩
  · dsimp only
    split_ifs <;> first
      | exact ⟨rfl, rfl, rfl⟩
      | · obtain ⟨a, b, c, -, -⟩ :=
            foldl_remove_membership_frame _ st m.versionId
          exact ⟨a, b, c⟩

theorem clean_memberships_frame (db : List Machine) (st : Store) :
    (clean_memberships st db).machines = st.machines ∧
    (clean_memberships st db).versions = st.versions ∧
    (clean_memberships st db).apps = st.apps := by
  induction db generalizing st with
  | nil => exact ⟨rfl, rfl, rfl⟩
  | cons m t ih =>
    obtain ⟨a, b, c⟩ := clean_one_frame st m
    obtain ⟨d, e, f⟩ := ih (clean_one st m)
    exact ⟨d.trans a, e.trans b, f.trans c⟩

theorem remove_versions_factored (V : List Version) (st : Store) (now : Nat) :
    ∃ F, (V.foldl (fun acc v => version_end_date_all acc v now) st).versions =
        st.versions.map F ∧ VerUpd F ∧
      ∀ v, (∃ w ∈ V, w.id = v.id) → (F v).end_date ≠ none := by
  induction V generalizing st with
  | nil =>
    refine ⟨fun v => v, by simp, VerUpd_id, ?_⟩
    rintro v ⟨w, hw, -⟩
    exact absurd hw (List.not_mem_nil w)
  | cons w t ih =>
    obtain ⟨F, hF, hupd, hkill⟩ := ih (version_end_date_all st w now)
    have hupd0 : VerUpd (fun y : Version =>
        if y.id == w.id && y.end_date.isNone
        then { y with end_date := some now } else y) := VerUpd_cond _ now
    refine ⟨fun y => F (if y.id == w.id && y.end_date.isNone
        then { y with end_date := some now } else y), ?_,
      VerUpd_comp hupd0 hupd, ?_⟩
    · rw [show (w :: t).foldl (fun acc v => version_end_date_all acc v now) st =
          t.foldl (fun acc v => version_end_date_all acc v now)
            (version_end_date_all st w now) from rfl,
        hF, version_end_date_all_versions, List.map_map]
      rfl
    · rintro y ⟨w2, hw2, hid⟩
      rcases List.mem_cons.mp hw2 with rfl | hw2
      · dsimp only
        have hterm : (if y.id == w2.id && y.end_date.isNone
            then { y with end_date := some now } else y).end_date ≠ none := by
          by_cases hnone : y.end_date = none
          · have hb : (y.id == w2.id && y.end_date.isNone) = true := by
              simp [hid, hnone]
            rw [if_pos hb]
            simp
          · have hb : y.end_date.isNone = false := by
              cases hy : y.end_date
              · exact absurd hy hnone
              · rfl
            rw [hb, Bool.and_false, if_neg (by decide)]
            exact hnone
        exact VerUpd_keep_end hupd _ hterm
      · have hid2 : (if y.id == w.id && y.end_date.isNone
            then { y with end_date := some now } else y).id = y.id := by
          split <;> rfl
        exact hkill _ ⟨w2, hw2, by rw [hid2]; exact hid⟩

theorem remove_applications_factored (A : List App) (st : Store) (now : Nat) :
    ∃ F, (A.foldl (fun acc a => app_end_date_all acc a now) st).apps =
        st.apps.map F ∧ AppUpd F ∧
      ∀ a, (∃ b ∈ A, b.id = a.id) → (F a).end_date ≠ none := by
  induction A generalizing st with
  | nil =>
    refine ⟨fun a => a, by simp, AppUpd_id, ?_⟩
    rintro a ⟨b, hb, -⟩
    exact absurd hb (List.not_mem_nil b)
  | cons b t ih =>
    obtain ⟨F, hF, hupd, hkill⟩ := ih (app_end_date_all st b now)
    have hupd0 : AppUpd (fun y : App =>
        if y.id == b.id && y.end_date.isNone
        then { y with end_date := some now } else y) := AppUpd_cond _ now
    refine ⟨fun y => F (if y.id == b.id && y.end_date.isNone
        then { y with end_date := some now } else y), ?_,
      AppUpd_comp hupd0 hupd, ?_⟩
    · rw [show (b :: t).foldl (fun acc a => app_end_date_all acc a now) st =
          t.foldl (fun acc a => app_end_date_all acc a now)
            (app_end_date_all st b now) from rfl,
        hF, app_end_date_all_apps, List.map_map]
      rfl
    · rintro y ⟨b2, hb2, hid⟩
      rcases List.mem_cons.mp hb2 with rfl | hb2
      · dsimp only
        have hterm : (if y.id == b2.id && y.end_date.isNone
            then { y with end_date := some now } else y).end_date ≠ none := by
          by_cases hnone : y.end_date = none
          · have hbb : (y.id == b2.id && y.end_date.isNone) = true := by
              simp [hid, hnone]
            rw [if_pos hbb]
            simp
          · have hbb : y.end_date.isNone = false := by
              cases hy : y.end_date
              · exact absurd hy hnone
              · rfl
            rw [hbb, Bool.and_false, if_neg (by decide)]
            exact hnone
        exact AppUpd_keep_end hupd _ hterm
      · have hid2 : (if y.id == b.id && y.end_date.isNone
            then { y with end_date := some now } else y).id = y.id := by
          split <;> rfl
        exact hkill _ ⟨b2, hb2, by rw [hid2]; exact hid⟩

theorem isNone_true {o : Option Nat} (h : o.isNone = true) : o = none := by
  cases o
  · rfl
  · simp at h

theorem isNone_false {o : Option Nat} (h : o ≠ none) : o.isNone = false := by
  cases ho : o
  · exact absurd ho h
  · rfl

theorem map_congr_fun {α β : Type} (l : List α) (f g : α → β)
    (h : ∀ x ∈ l, f x = g x) : l.map f = l.map g := by
  induction l with
  | nil => rfl
  | cons x t ih =>
    rw [List.map_cons, List.map_cons, h x (List.mem_cons_self x t),
      ih (fun y hy => h y (List.mem_cons_of_mem x hy))]

theorem matched_transport {cloud : List Nat} {s s2 : Store}
    (h : PhaseFact s s2)
    (hm : ∀ x ∈ s.machines, x.end_date = none →
      cloud.contains x.identifier = true) :
    ∀ x ∈ s2.machines, x.end_date = none →
      cloud.contains x.identifier = true := by
  obtain ⟨⟨F, hF, hu⟩, -, -⟩ := h
  intro x hx hnone
  rw [hF] at hx
  obtain ⟨y, hy, rfl⟩ := List.mem_map.mp hx
  have heq := MachUpd_current_eq hu y hnone
  rw [heq] at hnone ⊢
  exact hm y hy hnone

theorem vers_machines_transport {s s2 : Store} (h : PhaseFact s s2)
    (hq : ∀ v ∈ s.versions, v.end_date = none →
      ∃ x ∈ s.machines, x.versionId = v.id) :
    ∀ v ∈ s2.versions, v.end_date = none →
      ∃ x ∈ s2.machines, x.versionId = v.id := by
  obtain ⟨⟨F, hF, hu⟩, ⟨G, hG, hv⟩, -⟩ := h
  intro v hvmem hnone
  rw [hG] at hvmem
  obtain ⟨w, hw, rfl⟩ := List.mem_map.mp hvmem
  have heq := VerUpd_current_eq hv w hnone
  rw [heq] at hnone ⊢
  obtain ⟨x, hx, hxv⟩ := hq w hw hnone
  refine ⟨F x, ?_, ?_⟩
  · rw [hF]
    exact List.mem_map_of_mem F hx
  · rw [(MachUpd_fields hu x).2.2, hxv]

theorem apps_versions_transport {s s2 : Store} (h : PhaseFact s s2)
    (hr : ∀ a ∈ s.apps, a.end_date = none →
      ∃ v ∈ s.versions, v.appId = a.id) :
    ∀ a ∈ s2.apps, a.end_date = none →
      ∃ v ∈ s2.versions, v.appId = a.id := by
  obtain ⟨-, ⟨G, hG, hv⟩, ⟨H, hH, hu⟩⟩ := h
  intro a hamem hnone
  rw [hH] at hamem
  obtain ⟨b, hb, rfl⟩ := List.mem_map.mp hamem
  have heq := AppUpd_current_eq hu b hnone
  rw [heq] at hnone ⊢
  obtain ⟨v, hvmem, hva⟩ := hr b hb hnone
  refine ⟨G v, ?_, ?_⟩
  · rw [hG]
    exact List.mem_map_of_mem G hvmem
  · rw [(VerUpd_fields hv v).2, hva]

theorem nodup_apps_transport {s s2 : Store} (h : PhaseFact s s2)
    (hN : (s.apps.map (fun a => a.id)).Nodup) :
    (s2.apps.map (fun a => a.id)).Nodup := by
  obtain ⟨-, -, ⟨H, hH, hu⟩⟩ := h
  rw [hH, List.map_map]
  have hco : (fun a : App => a.id) ∘ H = fun a => (H a).id := rfl
  rw [hco,
    map_congr_fun s.apps _ (fun a => a.id) (fun a _ => AppUpd_fields hu a)]
  exact hN

theorem improperly_congr {s s2 : Store} (a : App)
    (h : s2.versions = s.versions) :
    improperly_enddated s2 a = improperly_enddated s a := by
  unfold improperly_enddated
  rw [h]

theorem improperly_spec {st : Store} {a : App}
    (h : improperly_enddated st a = true) :
    a.end_date ≠ none ∧
      ∀ v ∈ st.versions, v.appId = a.id → v.end_date ≠ none := by
  unfold improperly_enddated at h
  rw [Bool.and_eq_true] at h
  constructor
  · intro hn
    have := h.1
    rw [hn] at this
    simp at this
  · intro v hv hva
    have hmem : v ∈ st.versions.filter (fun v => v.appId == a.id) :=
      List.mem_filter.mpr ⟨hv, by simp [hva]⟩
    have := List.all_eq_true.mp h.2 v hmem
    intro hn
    rw [hn] at this
    simp at this

theorem versions_have_machines_after_B (st : Store) (now : Nat) :
    ∀ v ∈ (remove_versions_without_machines st now).versions,
      v.end_date = none →
      ∃ x ∈ (remove_versions_without_machines st now).machines,
        x.versionId = v.id := by
  have hrw : remove_versions_without_machines st now =
      (st.versions.filter (fun v => v.end_date.isNone &&
        (st.machines.filter (fun x => x.versionId == v.id)).isEmpty)).foldl
        (fun acc v => version_end_date_all acc v now) st := rfl
  rw [hrw]
  obtain ⟨F, hF, hupd, hkill⟩ := remove_versions_factored _ st now
  obtain ⟨⟨Fm, hFm, hum⟩, -, -⟩ :=
    foldl_phase _ (fun acc v => version_end_date_all acc v now)
      (fun s v => version_end_date_all_phase s v now) st
  intro v hv hnone
  rw [hF] at hv
  obtain ⟨w, hw, rfl⟩ := List.mem_map.mp hv
  have hFw := VerUpd_current_eq hupd w hnone
  rw [hFw] at hnone ⊢
  have hwmach : ∃ x ∈ st.machines, x.versionId = w.id := by
    by_contra hno
    have hempty : st.machines.filter (fun x => x.versionId == w.id) = [] := by
      rw [List.filter_eq_nil_iff]
      intro x hx hc
      exact hno ⟨x, hx, by simpa using hc⟩
    have hwV : w ∈ st.versions.filter (fun v => v.end_date.isNone &&
        (st.machines.filter (fun x => x.versionId == v.id)).isEmpty) :=
      List.mem_filter.mpr ⟨hw, by simp [hnone, hempty]⟩
    have hk := hkill w ⟨w, hwV, rfl⟩
    rw [hFw] at hk
    exact hk hnone
  obtain ⟨x, hx, hxv⟩ := hwmach
  refine ⟨Fm x, ?_, ?_⟩
  · rw [hFm]
    exact List.mem_map_of_mem Fm hx
  · rw [(MachUpd_fields hum x).2.2, hxv]

theorem apps_have_versions_after_C (st : Store) (now : Nat) :
    ∀ a ∈ (remove_applications_without_versions st now).apps,
      a.end_date = none →
      ∃ v ∈ (remove_applications_without_versions st now).versions,
        v.appId = a.id := by
  have hrw : remove_applications_without_versions st now =
      (st.apps.filter (fun a => a.end_date.isNone &&
        (st.versions.filter (fun v => v.appId == a.id)).isEmpty)).foldl
        (fun acc a => app_end_date_all acc a now) st := rfl
  rw [hrw]
  obtain ⟨F, hF, hupd, hkill⟩ := remove_applications_factored _ st now
  obtain ⟨-, ⟨G, hG, hv⟩, -⟩ :=
    foldl_phase _ (fun acc a => app_end_date_all acc a now)
      (fun s a => app_end_date_all_phase s a now) st
  intro a ha hnone
  rw [hF] at ha
  obtain ⟨b, hb, rfl⟩ := List.mem_map.mp ha
  have hFb := AppUpd_current_eq hupd b hnone
  rw [hFb] at hnone ⊢
  have hbv : ∃ v ∈ st.versions, v.appId = b.id := by
    by_contra hno
    have hempty : st.versions.filter (fun v => v.appId == b.id) = [] := by
      rw [List.filter_eq_nil_iff]
      intro v hv2 hc
      exact hno ⟨v, hv2, by simpa using hc⟩
    have hbA : b ∈ st.apps.filter (fun a => a.end_date.isNone &&
        (st.versions.filter (fun v => v.appId == a.id)).isEmpty) :=
      List.mem_filter.mpr ⟨hb, by simp [hnone, hempty]⟩
    have hk := hkill b ⟨b, hbA, rfl⟩
    rw [hFb] at hk
    exact hk hnone
  obtain ⟨v, hvmem, hva⟩ := hbv
  refine ⟨G v, ?_, ?_⟩
  · rw [hG]
    exact List.mem_map_of_mem G hvmem
  · rw [(VerUpd_fields hv v).2, hva]

theorem store_eq_of_fields {s2 s : Store}
    (h1 : s2.machines = s.machines) (h2 : s2.versions = s.versions)
    (h3 : s2.apps = s.apps) (h4 : s2.machineMembers = s.machineMembers)
    (h5 : s2.versionMembers = s.versionMembers)
    (h6 : s2.appMembers = s.appMembers) (h7 : s2.groups = s.groups)
    (h8 : s2.requests = s.requests) : s2 = s := by
  cases s2
  cases s
  simp_all

theorem app_end_date_step_versions (st acc : Store) (a : App) (now : Nat)
    (hacc_v : acc.versions = st.versions)
    (himp : improperly_enddated st a = true) :
    (app_end_date_all acc a now).versions = st.versions := by
  obtain ⟨-, hvers⟩ := improperly_spec himp
  rw [app_end_date_all_versions, hacc_v]
  apply map_id_of_eq
  intro v hv
  have hc : ¬ (v.appId == a.id && v.end_date.isNone) = true := by
    intro hco
    rw [Bool.and_eq_true] at hco
    have hva : v.appId = a.id := by simpa using hco.1
    have hvn : v.end_date = none := isNone_true hco.2
    exact (hvers v hv hva) hvn
  rw [if_neg hc]

theorem app_end_date_step_apps (st acc : Store) (a : App) (now : Nat)
    (hacc_a : acc.apps = st.apps) (hmem : a ∈ st.apps)
    (himp : improperly_enddated st a = true)
    (hN : (st.apps.map (fun a => a.id)).Nodup) :
    (app_end_date_all acc a now).apps = st.apps := by
  obtain ⟨hend, -⟩ := improperly_spec himp
  rw [app_end_date_all_apps, hacc_a]
  apply map_id_of_eq
  intro p hp
  have hc : ¬ (p.id == a.id && p.end_date.isNone) = true := by
    intro hco
    rw [Bool.and_eq_true] at hco
    have hpa : p.id = a.id := by simpa using hco.1
    have hpq : p = a := nodup_key st.apps (fun a => a.id) hN p hp a hmem hpa
    have hpn : p.end_date = none := isNone_true hco.2
    rw [hpq] at hpn
    exact hend hpn
  rw [if_neg hc]

theorem fold_app_end_date_versions_apps (M : List App) (st : Store)
    (now : Nat) (hN : (st.apps.map (fun a => a.id)).Nodup) :
    ∀ acc : Store, acc.versions = st.versions → acc.apps = st.apps →
    (∀ a ∈ M, a ∈ st.apps ∧ improperly_enddated st a = true) →
    (M.foldl (fun acc a => app_end_date_all acc a now) acc).versions =
        st.versions ∧
      (M.foldl (fun acc a => app_end_date_all acc a now) acc).apps =
        st.apps := by
  induction M with
  | nil => exact fun acc hv ha _ => ⟨hv, ha⟩
  | cons a t ih =>
    intro acc hacc_v hacc_a hM
    obtain ⟨hmem, himp⟩ := hM a (List.mem_cons_self a t)
    exact ih (app_end_date_all acc a now)
      (app_end_date_step_versions st acc a now hacc_v himp)
      (app_end_date_step_apps st acc a now hacc_a hmem himp hN)
      (fun b hb => hM b (List.mem_cons_of_mem a hb))

theorem fold_app_end_date_machines_kill (M : List App) (st : Store)
    (now : Nat) (hN : (st.apps.map (fun a => a.id)).Nodup) :
    ∀ acc : Store, acc.versions = st.versions → acc.apps = st.apps →
    (∀ a ∈ M, a ∈ st.apps ∧ improperly_enddated st a = true) →
    ∃ F, (M.foldl (fun acc a => app_end_date_all acc a now) acc).machines =
        acc.machines.map F ∧ MachUpd F ∧
      ∀ x, (∃ a ∈ M, (st.versions.filter (fun v => v.appId == a.id)).any
          (fun v => v.id == x.versionId) = true) →
        (F x).end_date ≠ none := by
  induction M with
  | nil =>
    intro acc _ _ _
    refine ⟨fun x => x, by simp, MachUpd_id, ?_⟩
    rintro x ⟨a, ha, -⟩
    exact absurd ha (List.not_mem_nil a)
  | cons a t ih =>
    intro acc hacc_v hacc_a hM
    obtain ⟨hmem, himp⟩ := hM a (List.mem_cons_self a t)
    have hsv := app_end_date_step_versions st acc a now hacc_v himp
    have hsa := app_end_date_step_apps st acc a now hacc_a hmem himp hN
    obtain ⟨F, hF, hupd, hkill⟩ := ih (app_end_date_all acc a now) hsv hsa
      (fun b hb => hM b (List.mem_cons_of_mem a hb))
    have hstep_m : (app_end_date_all acc a now).machines = acc.machines.map
        (fun x => if (st.versions.filter (fun v => v.appId == a.id)).any
            (fun v => v.id == x.versionId) && x.end_date.isNone
          then { x with end_date := some now } else x) := by
      rw [app_end_date_all_machines, hacc_v]
    have hupd0 : MachUpd (fun x : Machine =>
        if (st.versions.filter (fun v => v.appId == a.id)).any
            (fun v => v.id == x.versionId) && x.end_date.isNone
        then { x with end_date := some now } else x) := MachUpd_cond _ now
    refine ⟨fun x => F (if (st.versions.filter (fun v => v.appId == a.id)).any
        (fun v => v.id == x.versionId) && x.end_date.isNone
        then { x with end_date := some now } else x), ?_,
      MachUpd_comp hupd0 hupd, ?_⟩
    · rw [show (a :: t).foldl (fun acc a => app_end_date_all acc a now) acc =
          t.foldl (fun acc a => app_end_date_all acc a now)
            (app_end_date_all acc a now) from rfl,
        hF, hstep_m, List.map_map]
      rfl
    · rintro x ⟨b, hb, hany⟩
      rcases List.mem_cons.mp hb with rfl | hb2
      · dsimp only
        have hterm : (if (st.versions.filter (fun v => v.appId == b.id)).any
            (fun v => v.id == x.versionId) && x.end_date.isNone
            then { x with end_date := some now } else x).end_date ≠ none := by
          by_cases hnone : x.end_date = none
          · rw [if_pos (by simp [hany, hnone])]
            simp
          · rw [isNone_false hnone, Bool.and_false, if_neg (by decide)]
            exact hnone
        exact MachUpd_keep_end hupd _ hterm
      · have hid2 : (if (st.versions.filter (fun v => v.appId == a.id)).any
            (fun v => v.id == x.versionId) && x.end_date.isNone
            then { x with end_date := some now } else x).versionId =
            x.versionId := by
          split <;> rfl
        apply hkill
        exact ⟨b, hb2, by rw [hid2]; exact hany⟩

theorem improperly_machines_filled_after_D (st : Store) (now : Nat)
    (hN : (st.apps.map (fun a => a.id)).Nodup) :
    ∀ a ∈ (update_improperly_enddated_applications st now).apps,
      improperly_enddated (update_improperly_enddated_applications st now) a =
        true →
      ∀ x ∈ (update_improperly_enddated_applications st now).machines,
        ((update_improperly_enddated_applications st now).versions.filter
            (fun v => v.appId == a.id)).any
          (fun v => v.id == x.versionId) = true →
        x.end_date ≠ none := by
  have hrw : update_improperly_enddated_applications st now =
      (st.apps.filter (fun a => improperly_enddated st a)).foldl
        (fun acc a => app_end_date_all acc a now) st := rfl
  have hMspec : ∀ b ∈ st.apps.filter (fun a => improperly_enddated st a),
      b ∈ st.apps ∧ improperly_enddated st b = true := by
    intro b hb
    have hm := List.mem_filter.mp hb
    exact ⟨hm.1, by simpa using hm.2⟩
  obtain ⟨hv_eq, ha_eq⟩ := fold_app_end_date_versions_apps
    (st.apps.filter (fun a => improperly_enddated st a)) st now hN st rfl rfl
    hMspec
  obtain ⟨F, hF, hupd, hkill⟩ := fold_app_end_date_machines_kill
    (st.apps.filter (fun a => improperly_enddated st a)) st now hN st rfl rfl
    hMspec
  rw [hrw]
  intro a ha himp x hx hany
  rw [ha_eq] at ha
  rw [hv_eq] at hany
  have himp2 : improperly_enddated st a = true := by
    rw [← improperly_congr a (hrw ▸ hv_eq : (update_improperly_enddated_applications st now).versions = st.versions)]
    rw [hrw]
    exact himp
  have haM : a ∈ st.apps.filter (fun a => improperly_enddated st a) :=
    List.mem_filter.mpr ⟨ha, by simp [himp2]⟩
  rw [hF] at hx
  obtain ⟨y, hy, rfl⟩ := List.mem_map.mp hx
  have hyv := (MachUpd_fields hupd y).2.2
  have hk := hkill y ⟨a, haM, by rw [← hyv]; exact hany⟩
  exact hk

theorem end_date_missing_id (db : List Machine) (st : Store)
    (cloud : List Nat) (now : Nat) :
    (∀ m ∈ db, cloud.contains m.identifier = true) →
    end_date_missing_database_machines st db cloud now = st := by
  induction db with
  | nil => intro _; rfl
  | cons m t ih =>
    intro h
    rw [show end_date_missing_database_machines st (m :: t) cloud now =
        end_date_missing_database_machines
          (if cloud.contains m.identifier then st else remove_machine st m now)
          t cloud now from rfl,
      if_pos (h m (List.mem_cons_self m t))]
    exact ih (fun y hy => h y (List.mem_cons_of_mem m hy))

theorem remove_versions_id (st : Store) (now : Nat)
    (h : ∀ v ∈ st.versions, v.end_date = none →
      ∃ x ∈ st.machines, x.versionId = v.id) :
    remove_versions_without_machines st now = st := by
  unfold remove_versions_without_machines
  have hnil : st.versions.filter (fun v => v.end_date.isNone &&
      (st.machines.filter (fun x => x.versionId == v.id)).isEmpty) = [] := by
    rw [List.filter_eq_nil_iff]
    intro v hv hcontra
    rw [Bool.and_eq_true] at hcontra
    have hnone : v.end_date = none := isNone_true hcontra.1
    obtain ⟨x, hx, hxv⟩ := h v hv hnone
    have hxmem : x ∈ st.machines.filter (fun x => x.versionId == v.id) :=
      List.mem_filter.mpr ⟨hx, by simp [hxv]⟩
    have hemp : st.machines.filter (fun x => x.versionId == v.id) = [] := by
      simpa using hcontra.2
    rw [hemp] at hxmem
    exact absurd hxmem (List.not_mem_nil x)
  rw [hnil]
  rfl

theorem remove_applications_id (st : Store) (now : Nat)
    (h : ∀ a ∈ st.apps, a.end_date = none →
      ∃ v ∈ st.versions, v.appId = a.id) :
    remove_applications_without_versions st now = st := by
  unfold remove_applications_without_versions
  have hnil : st.apps.filter (fun a => a.end_date.isNone &&
      (st.versions.filter (fun v => v.appId == a.id)).isEmpty) = [] := by
    rw [List.filter_eq_nil_iff]
    intro a ha hcontra
    rw [Bool.and_eq_true] at hcontra
    have hnone : a.end_date = none := isNone_true hcontra.1
    obtain ⟨v, hv, hva⟩ := h a ha hnone
    have hvmem : v ∈ st.versions.filter (fun v => v.appId == a.id) :=
      List.mem_filter.mpr ⟨hv, by simp [hva]⟩
    have hemp : st.versions.filter (fun v => v.appId == a.id) = [] := by
      simpa using hcontra.2
    rw [hemp] at hvmem
    exact absurd hvmem (List.not_mem_nil v)
  rw [hnil]
  rfl

theorem update_improperly_id (st : Store) (now : Nat)
    (hN : (st.apps.map (fun a => a.id)).Nodup)
    (hfill : ∀ a ∈ st.apps, improperly_enddated st a = true →
      ∀ x ∈ st.machines, ((st.versions.filter
          (fun v => v.appId == a.id)).any
        (fun v => v.id == x.versionId)) = true → x.end_date ≠ none) :
    update_improperly_enddated_applications st now = st := by
  have key : ∀ M : List App,
      (∀ a ∈ M, a ∈ st.apps ∧ improperly_enddated st a = true) →
      M.foldl (fun acc a => app_end_date_all acc a now) st = st := by
    intro M
    induction M with
    | nil => intro _; rfl
    | cons a t ih =>
      intro hM
      obtain ⟨hmem, himp⟩ := hM a (List.mem_cons_self a t)
      have hstep : app_end_date_all st a now = st := by
        have e1 : (app_end_date_all st a now).machines = st.machines := by
          rw [app_end_date_all_machines]
          apply map_id_of_eq
          intro x hx
          by_cases hany : ((st.versions.filter (fun v => v.appId == a.id)).any
              (fun v => v.id == x.versionId)) = true
          · by_cases hnone : x.end_date = none
            · exact absurd hnone (hfill a hmem himp x hx hany)
            · rw [isNone_false hnone, Bool.and_false, if_neg (by decide)]
          · have hb : ((st.versions.filter (fun v => v.appId == a.id)).any
                (fun v => v.id == x.versionId)) = false :=
              Bool.eq_false_iff.mpr hany
            rw [hb, Bool.false_and, if_neg (by decide)]
        have e2 := app_end_date_step_versions st st a now rfl himp
        have e3 := app_end_date_step_apps st st a now rfl hmem himp hN
        exact store_eq_of_fields e1 e2 e3 rfl rfl rfl rfl rfl
      rw [show (a :: t).foldl (fun acc a => app_end_date_all acc a now) st =
          t.foldl (fun acc a => app_end_date_all acc a now)
            (app_end_date_all st a now) from rfl, hstep]
      exact ih (fun b hb => hM b (List.mem_cons_of_mem a hb))
  have hMspec : ∀ b ∈ st.apps.filter (fun a => improperly_enddated st a),
      b ∈ st.apps ∧ improperly_enddated st b = true := by
    intro b hb
    have hm := List.mem_filter.mp hb
    exact ⟨hm.1, by simpa using hm.2⟩
  exact key _ hMspec

theorem prune_machines_for_guard (st : Store) (raw : List Nat)
    (valid : Nat → Bool) (validate forced : Bool) (now : Nat)
    (hguard : ((raw.filter (fun c => !validate || valid c)).isEmpty &&
      !forced) = true) :
    prune_machines_for st raw valid validate forced now = st := by
  unfold prune_machines_for
  dsimp only
  rw [if_pos hguard]

theorem prune_machines_for_eq (st : Store) (raw : List Nat)
    (valid : Nat → Bool) (validate forced : Bool) (now : Nat)
    (hguard : ((raw.filter (fun c => !validate || valid c)).isEmpty &&
      !forced) = false) :
    prune_machines_for st raw valid validate forced now =
      clean_memberships
        (update_improperly_enddated_applications
          (remove_applications_without_versions
            (remove_versions_without_machines
              (end_date_missing_database_machines st
                (st.machines.filter (fun m => m.end_date.isNone))
                (raw.filter (fun c => !validate || valid c)) now) now) now)
          now)
        (st.machines.filter (fun m => m.end_date.isNone)) := by
  unfold prune_machines_for
  dsimp only
  rw [if_neg (fun hc => by rw [hguard] at hc; exact absurd hc (by decide))]

/-- C4 (amended): the end-dating portion of the reconciliation pass is
idempotent.  Running `prune_machines_for` a second time against an unchanged
cloud snapshot leaves the machine, version and application tables exactly as
the first run left them: machines end-dated by the first run are no longer in
the current query set, matched machines are untouched, and the sweep passes
find nothing new.  (The membership-cleanup stage, by contrast, is not a no-op
on the second run in general; see the counterexample.)  Applications are
assumed to have pairwise distinct primary keys, as in any relational store. -/
theorem C4_second_run_no_enddating (st : Store) (raw : List Nat)
    (valid : Nat → Bool) (validate forced : Bool) (now1 now2 : Nat)
    (hN : (st.apps.map (fun a => a.id)).Nodup) :
    (prune_machines_for (prune_machines_for st raw valid validate forced now1)
        raw valid validate forced now2).machines =
      (prune_machines_for st raw valid validate forced now1).machines ∧
    (prune_machines_for (prune_machines_for st raw valid validate forced now1)
        raw valid validate forced now2).versions =
      (prune_machines_for st raw valid validate forced now1).versions ∧
    (prune_machines_for (prune_machines_for st raw valid validate forced now1)
        raw valid validate forced now2).apps =
      (prune_machines_for st raw valid validate forced now1).apps := by
  by_cases hguard : ((raw.filter (fun c => !validate || valid c)).isEmpty &&
      !forced) = true
  · rw [prune_machines_for_guard st raw valid validate forced now1 hguard,
      prune_machines_for_guard st raw valid validate forced now2 hguard]
    exact ⟨rfl, rfl, rfl⟩
  · have hg : ((raw.filter (fun c => !validate || valid c)).isEmpty &&
        !forced) = false := Bool.eq_false_iff.mpr hguard
    have hprune1 := prune_machines_for_eq st raw valid validate forced now1 hg
    set cloud := raw.filter (fun c => !validate || valid c) with hcloud
    set db := st.machines.filter (fun m => m.end_date.isNone) with hdbdef
    set sA := end_date_missing_database_machines st db cloud now1 with hsAdef
    set sB := remove_versions_without_machines sA now1 with hsBdef
    set sC := remove_applications_without_versions sB now1 with hsCdef
    set sD := update_improperly_enddated_applications sC now1 with hsDdef
    set s1 := clean_memberships sD db with hs1def
    obtain ⟨hE1m, hE1v, hE1a⟩ := clean_memberships_frame db sD
    have phA : PhaseFact st sA := end_date_missing_phase st db cloud now1
    have phB : PhaseFact sA sB := remove_versions_phase sA now1
    have phC : PhaseFact sB sC := remove_applications_phase sB now1
    have phD : PhaseFact sC sD := update_improperly_phase sC now1
    have hF1A : ∀ x ∈ sA.machines, x.end_date = none →
        cloud.contains x.identifier = true :=
      current_matched_after_loop1 st db cloud now1
        (fun m hm hnone => List.mem_filter.mpr ⟨hm, by simp [hnone]⟩)
    have hF1D := matched_transport phD
      (matched_transport phC (matched_transport phB hF1A))
    have hF1 : ∀ x ∈ s1.machines, x.end_date = none →
        cloud.contains x.identifier = true := by
      intro x hx
      rw [hE1m] at hx
      exact hF1D x hx
    have hF2B := versions_have_machines_after_B sA now1
    have hF2D := vers_machines_transport phD (vers_machines_transport phC hF2B)
    have hF2 : ∀ v ∈ s1.versions, v.end_date = none →
        ∃ x ∈ s1.machines, x.versionId = v.id := by
      intro v hv hnone
      rw [hE1v] at hv
      obtain ⟨x, hx, hxv⟩ := hF2D v hv hnone
      exact ⟨x, by rw [hE1m]; exact hx, hxv⟩
    have hF3C := apps_have_versions_after_C sB now1
    have hF3D := apps_versions_transport phD hF3C
    have hF3 : ∀ a ∈ s1.apps, a.end_date = none →
        ∃ v ∈ s1.versions, v.appId = a.id := by
      intro a ha hnone
      rw [hE1a] at ha
      obtain ⟨v, hv, hva⟩ := hF3D a ha hnone
      exact ⟨v, by rw [hE1v]; exact hv, hva⟩
    have hNC : (sC.apps.map (fun a => a.id)).Nodup :=
      nodup_apps_transport phC
        (nodup_apps_transport phB (nodup_apps_transport phA hN))
    have hND : (sD.apps.map (fun a => a.id)).Nodup :=
      nodup_apps_transport phD hNC
    have hN1 : (s1.apps.map (fun a => a.id)).Nodup := by
      rw [hE1a]
      exact hND
    have hF4D := improperly_machines_filled_after_D sC now1 hNC
    have hF4 : ∀ a ∈ s1.apps, improperly_enddated s1 a = true →
        ∀ x ∈ s1.machines, ((s1.versions.filter
            (fun v => v.appId == a.id)).any
          (fun v => v.id == x.versionId)) = true → x.end_date ≠ none := by
      intro a ha himp x hx hany
      rw [hE1a] at ha
      rw [hE1m] at hx
      rw [hE1v] at hany
      rw [improperly_congr a hE1v] at himp
      exact hF4D a ha himp x hx hany
    have hprune2 := prune_machines_for_eq s1 raw valid validate forced now2 hg
    have hA2 : end_date_missing_database_machines s1
        (s1.machines.filter (fun m => m.end_date.isNone)) cloud now2 = s1 :=
      end_date_missing_id _ s1 cloud now2
        (fun m hm =>
          hF1 m (List.mem_filter.mp hm).1
            (isNone_true (by simpa using (List.mem_filter.mp hm).2)))
    have hB2 : remove_versions_without_machines s1 now2 = s1 :=
      remove_versions_id s1 now2 hF2
    have hC2 : remove_applications_without_versions s1 now2 = s1 :=
      remove_applications_id s1 now2 hF3
    have hD2 : update_improperly_enddated_applications s1 now2 = s1 :=
      update_improperly_id s1 now2 hN1 hF4
    rw [hprune1, hprune2, hA2, hB2, hC2, hD2]
    exact clean_memberships_frame
      (s1.machines.filter (fun m => m.end_date.isNone)) s1

set_option maxRecDepth 20000 in
set_option maxHeartbeats 4000000 in
/-- C4 counterexample: a second run of `prune_machines_for` against the
unchanged snapshot is not a no-op on the store.  On `c4store` the first run
triggers the membership-integrity cleanup at the machine granularity (130
rows), leaving 10 machine rows and 135 version rows; the second run then
falls through to the version granularity, which still holds at least 128
rows, and removes 125 further membership rows. -/
theorem C4_counterexample :
    prune_machines_for
        (prune_machines_for c4store [5] (fun _ => true) true false 7)
        [5] (fun _ => true) true false 9 ≠
      prune_machines_for c4store [5] (fun _ => true) true false 7 := by
  intro h
  have h1 : (prune_machines_for c4store [5] (fun _ => true) true false
      7).versionMembers.length = 135 := by decide
  have h2 : (prune_machines_for
      (prune_machines_for c4store [5] (fun _ => true) true false 7)
      [5] (fun _ => true) true false 9).versionMembers.length = 10 := by
    decide
  rw [h, h1] at h2
  exact absurd h2 (by decide)

/-- C4 witness: the amended idempotence applied at the counterexample store:
even there, the second run changes no machine, version, or application row. -/
theorem C4_second_run_no_enddating_witness :
    (prune_machines_for
        (prune_machines_for c4store [5] (fun _ => true) true false 7)
        [5] (fun _ => true) true false 9).machines =
      (prune_machines_for c4store [5] (fun _ => true) true false 7).machines ∧
    (prune_machines_for
        (prune_machines_for c4store [5] (fun _ => true) true false 7)
        [5] (fun _ => true) true false 9).versions =
      (prune_machines_for c4store [5] (fun _ => true) true false 7).versions ∧
    (prune_machines_for
        (prune_machines_for c4store [5] (fun _ => true) true false 7)
        [5] (fun _ => true) true false 9).apps =
      (prune_machines_for c4store [5] (fun _ => true) true false 7).apps :=
  C4_second_run_no_enddating c4store [5] (fun _ => true) true false 7 9
    (by decide)

/-- C8 witness: concrete run on a populated store, preserving the three
pre-existing grants. -/
theorem C8_membership_monotonic_witness :
    (0, 1) ∈ (update_image_membership c10store ⟨0, 5, 0, none⟩ "private"
        (some 1) [2] none []).machineMembers ∧
    (0, 1) ∈ (add_application_membership c10store 0 [2]
        false).appMembers :=
  ⟨(C8_membership_monotonic c10store ⟨0, 5, 0, none⟩ "private" (some 1) [2]
      none [] 0 [2] false).1 (0, 1) (by decide),
    (C8_membership_monotonic c10store ⟨0, 5, 0, none⟩ "private" (some 1) [2]
      none [] 0 [2] false).2.2.2.1 (0, 1) (by decide)⟩

end Atmo
